import Mathlib

/-!
# Verification of the helf workout-program interpreter and progression engine

Shallow embedding, in Lean 4, of the algorithmic core of the `helf`
strength-training tracker:

* `app/utils/calculations.py`  (1RM estimator),
* `app/services/wendler_service.py`  (periodization generator),
* `app/services/progression_service.py`  (progression projector),
* `app/services/liftoscript_service.py`  (program-script parser).

Modelling conventions, used throughout:

* Python floats are modelled as exact rationals (`ℚ`).  `round` (banker's
  rounding, ties to even) is modelled on rationals by `pyRound`; decimal
  literals such as `0.033` and `2.20462` are the corresponding exact
  rationals.  None of the facts proved below hinges on a value that is a
  rounding tie only in binary or only in decimal.
* Python `int(x)` on a number is truncation toward zero, `pyTrunc`.
* Calendar dates (ISO `YYYY-MM-DD` strings in the source) are modelled as
  integer day numbers: ISO date strings compare lexicographically exactly
  as their day numbers compare, `+ timedelta(days=2)` is `+ 2`, and
  `datetime.now(...).date()` is an explicit `today : ℤ` parameter.
* Python strings manipulated character by character are modelled as
  `List Char`; string methods used by the source (`strip`, `split`,
  `startswith`, `in`, `replace`) are given explicit `List Char`
  implementations.
* Values that Python stores as `None`-able fields become `Option`;
  Python truthiness tests (`if not weight`) are modelled by explicit
  truthiness functions on those types.
-/

/-! ## Python numeric primitives -/

/-- Python 3 `round(x)`: round half to even (banker's rounding). -/
def pyRound (q : ℚ) : ℤ :=
  if q - (⌊q⌋ : ℚ) < 1/2 then ⌊q⌋
  else if 1/2 < q - (⌊q⌋ : ℚ) then ⌊q⌋ + 1
  else if ⌊q⌋ % 2 = 0 then ⌊q⌋ else ⌊q⌋ + 1

/-- Python 3 `round(x, 1)`: round half to even at one decimal place. -/
def pyRound1 (q : ℚ) : ℚ := (pyRound (10 * q) : ℚ) / 10

/-- Python `int(x)` on a number: truncation toward zero. -/
def pyTrunc (q : ℚ) : ℤ := if 0 ≤ q then ⌊q⌋ else -⌊-q⌋

/-- The kg→lb factor `2.20462` from `_convert_kg_to_lbs`. -/
def kgToLbFactor : ℚ := 220462 / 100000

theorem pyRound_intCast (n : ℤ) : pyRound (n : ℚ) = n := by
  simp [pyRound]

theorem pyTrunc_intCast (n : ℤ) : pyTrunc (n : ℚ) = n := by
  unfold pyTrunc
  rcases le_or_lt 0 n with h | h
  · rw [if_pos (by exact_mod_cast h), Int.floor_intCast]
  · rw [if_neg (by exact_mod_cast not_le.mpr h), ← Int.cast_neg,
      Int.floor_intCast, neg_neg]

/-! ## Python string primitives (over `List Char`) -/

/-- Python `str.strip()` (the source only ever strips ASCII whitespace). -/
def pyStrip (cs : List Char) : List Char :=
  ((cs.dropWhile Char.isWhitespace).reverse.dropWhile Char.isWhitespace).reverse

/-- Python `s.split(sep)` for a one-character separator. -/
def pySplitOn (sep : Char) : List Char → List (List Char)
  | [] => [[]]
  | c :: cs =>
      let rest := pySplitOn sep cs
      if c = sep then [] :: rest
      else match rest with
        | [] => [[c]]
        | r :: rs => (c :: r) :: rs

/-- Python `s.startswith(p)`. -/
def pyStartsWith (p : List Char) (cs : List Char) : Bool :=
  p.isPrefixOf cs

/-- Value of a digit run. -/
def natOfDigits (cs : List Char) : ℕ :=
  cs.foldl (fun acc c => 10 * acc + (c.toNat - '0'.toNat)) 0

/-! ## `app/utils/calculations.py` — the 1RM estimator

```python
def calculate_estimated_1rm(weight, reps):
    try:
        if isinstance(reps, str):
            reps_num = int(reps.replace("+", ""))
        else:
            reps_num = int(reps)
        weight_num = float(weight)
        estimated_1rm = (0.033 * reps_num * weight_num) + weight_num
        return round(estimated_1rm, 1)
    except (ValueError, TypeError):
        return 0.0
```

`reps` is typed `int | str` and `weight` `float`, but callers can hand the
function arbitrary values and missing values are `None`, so we model the
dynamic shapes each argument can take.  Python `int(<str>)` accepts an
optional sign and a nonempty digit run with surrounding whitespace;
`float(<str>)` additionally accepts a fractional part.  (Underscore digit
separators and exponent notation, which no caller produces, are not
modelled.) -/

/-- A dynamically typed `reps` argument: an integer, a string, or `None`. -/
inductive RVal where
  | rint (n : ℤ)
  | rstr (s : List Char)
  | rnone
  deriving DecidableEq, Repr

/-- A dynamically typed `weight` argument: a number, a string, or `None`. -/
inductive WVal where
  | wnum (q : ℚ)
  | wstr (s : List Char)
  | wnone
  deriving DecidableEq, Repr

/-- Python `int(s)` for a string; `none` models `ValueError`. -/
def pyIntOfString (s : List Char) : Option ℤ :=
  let cs := pyStrip s
  let (neg, cs) :=
    match cs with
    | '-' :: rest => (true, rest)
    | '+' :: rest => (false, rest)
    | rest => (false, rest)
  if cs ≠ [] ∧ cs.all Char.isDigit then
    some (if neg then -(natOfDigits cs : ℤ) else (natOfDigits cs : ℤ))
  else none

/-- Python `float(s)` for a string; `none` models `ValueError`. -/
def pyFloatOfString (s : List Char) : Option ℚ :=
  let cs := pyStrip s
  let (neg, cs) :=
    match cs with
    | '-' :: rest => (true, rest)
    | '+' :: rest => (false, rest)
    | rest => (false, rest)
  let intPart := cs.takeWhile Char.isDigit
  let rest := cs.dropWhile Char.isDigit
  let parsed : Option ℚ :=
    match rest with
    | [] => if intPart = [] then none else some (natOfDigits intPart : ℚ)
    | '.' :: frac =>
        if (intPart ≠ [] ∨ frac ≠ []) ∧ frac.all Char.isDigit then
          some ((natOfDigits intPart : ℚ) +
            (natOfDigits frac : ℚ) / (10 : ℚ) ^ frac.length)
        else none
    | _ => none
  parsed.map (fun q => if neg then -q else q)

/-- `int(reps)` after the `isinstance(reps, str)` dispatch, with the
`reps.replace("+", "")` pre-pass for strings; `none` models the
`ValueError`/`TypeError` cases. -/
def repsToInt : RVal → Option ℤ
  | .rint n => some n
  | .rstr s => pyIntOfString (s.filter (· ≠ '+'))
  | .rnone => none

/-- `float(weight)`; `none` models `ValueError`/`TypeError`. -/
def weightToFloat : WVal → Option ℚ
  | .wnum q => some q
  | .wstr s => pyFloatOfString s
  | .wnone => none

/-- `calculate_estimated_1rm` from `app/utils/calculations.py`. -/
def calculate_estimated_1rm (weight : WVal) (reps : RVal) : ℚ :=
  match repsToInt reps with
  | none => 0
  | some repsNum =>
    match weightToFloat weight with
    | none => 0
    | some weightNum =>
        pyRound1 ((33 / 1000 : ℚ) * repsNum * weightNum + weightNum)

example : calculate_estimated_1rm (.wnum 100) (.rstr "5+".data) = 1165 / 10 := by
  have h : repsToInt (.rstr "5+".data) = some 5 := by decide
  simp [calculate_estimated_1rm, h, weightToFloat, pyRound1]
  norm_num [pyRound]

example : calculate_estimated_1rm (.wstr "bad".data) (.rstr "x".data) = 0 := by
  have h : repsToInt (.rstr "x".data) = (none : Option ℤ) := by decide
  simp [calculate_estimated_1rm, h]

/-! ## `app/services/wendler_service.py` — the periodization generator

`generate_progression` is pure except for reading its default maxes and the
next free session number from the repositories; we model it at the point
where `starting_squat`/`starting_bench`/`starting_deadlift` and
`start_session` are already resolved (the claims under test pass all three
maxes explicitly, which short-circuits the repository defaults via
`squat_max or ...`, and start with an empty upcoming table, giving
`start_session = 1`). -/

/-- A created upcoming workout (`UpcomingWorkoutCreate`): the entry shape
produced by both the generator and the parser.  `weight` is a `float |
None` field in the model; every value either service assigns to it is a
rounded integer (or `0`/`None`), kept here as `ℚ` to match the field's
type. -/
structure PlannedEntry where
  session : ℤ
  exercise : String
  category : String
  weight : Option ℚ
  weight_unit : String
  reps : Option ℤ
  comment : Option String
  deriving DecidableEq, Repr

/-- `WEEK_PERCENTAGES`: `(percentage, reps)` pairs per week 1–4.  Any other
key raises `KeyError` in Python and is modelled as the empty list (no
caller uses one). -/
def WEEK_PERCENTAGES (week : ℤ) : List (ℚ × ℤ) :=
  if week = 1 then [(65/100, 5), (75/100, 5), (85/100, 5)]
  else if week = 2 then [(70/100, 3), (80/100, 3), (90/100, 3)]
  else if week = 3 then [(75/100, 5), (85/100, 3), (95/100, 1)]
  else if week = 4 then [(40/100, 5), (50/100, 5), (60/100, 5)]
  else []

/-- `WendlerService.calculate_weights`:

```python
for pct, reps in self.WEEK_PERCENTAGES[week]:
    weight = max_weight * pct
    weight = round(weight / 5) * 5
    if weight % 10 == 0:
        weight -= 5
    weights.append((int(weight), reps))
```
-/
def calculate_weights (maxWeight : ℚ) (week : ℤ) : List (ℤ × ℤ) :=
  (WEEK_PERCENTAGES week).map (fun pr =>
    let w1 : ℤ := pyRound (maxWeight * pr.1 / 5) * 5
    let w2 : ℤ := if w1 % 10 = 0 then w1 - 5 else w1
    (w2, pr.2))

/-- `ACCESSORIES["squat_day"]`. -/
def squatDayAccessories : List (String × String × Option String) :=
  [("Pull Up", "Pull", some "Bodyweight"),
   ("Incline Dumbbell Press", "Push", none),
   ("Decline Crunch", "Core", none)]

/-- `ACCESSORIES["bench_day"]`. -/
def benchDayAccessories : List (String × String × Option String) :=
  [("Front Squat", "Legs", none),
   ("Dumbbell Row", "Pull", none),
   ("Landmines", "Core", none)]

/-- `ACCESSORIES["deadlift_day"]`. -/
def deadliftDayAccessories : List (String × String × Option String) :=
  [("Parallel Bar Triceps Dip", "Push", some "Bodyweight"),
   ("Bulgarian Split Squat", "Legs", none),
   ("Cable side bend", "Core", none)]

/-- The main-lift entries of one training day
(`for set_idx, (weight, reps) in enumerate(..., 1): workouts.append(...)`). -/
def mainLiftEntries (sess : ℤ) (exercise category : String) (oneRm : ℚ)
    (week : ℤ) (weekLabel : String) : List PlannedEntry :=
  (calculate_weights oneRm week).enum.map (fun iwr =>
    { session := sess
      exercise := exercise
      category := category
      weight := some (iwr.2.1 : ℚ)
      weight_unit := "lbs"
      reps := some iwr.2.2
      comment := some (weekLabel ++ " - Set " ++ toString (iwr.1 + 1)) })

/-- Accessory entries for the squat/deadlift days, which pass
`weight=0 if comment == "Bodyweight" else None` and `weight_unit="lbs"`. -/
def accessoryEntriesWeighted (sess : ℤ)
    (accs : List (String × String × Option String)) : List PlannedEntry :=
  accs.map (fun acc =>
    { session := sess
      exercise := acc.1
      category := acc.2.1
      weight := if acc.2.2 = some "Bodyweight" then some 0 else none
      weight_unit := "lbs"
      reps := none
      comment := acc.2.2 })

/-- Accessory entries for the bench day, which omit the `weight` and
`weight_unit` keyword arguments (pydantic defaults: `None` and `"lbs"`). -/
def accessoryEntriesPlain (sess : ℤ)
    (accs : List (String × String × Option String)) : List PlannedEntry :=
  accs.map (fun acc =>
    { session := sess
      exercise := acc.1
      category := acc.2.1
      weight := none
      weight_unit := "lbs"
      reps := none
      comment := acc.2.2 })

/-- `f"Week {week}" if week < 4 else "Week 4 Deload"`. -/
def weekLabel (week : ℤ) : String :=
  if week < 4 then "Week " ++ toString week else "Week 4 Deload"

/-- One week of the generator's cycle loop body: squat day, bench day and
deadlift day, each followed by its accessories, with the session counter
incremented once per day.  Returns the entries and the updated counter. -/
def weekEntries (squat1 bench1 dead1 : ℚ) (week : ℤ) (sess : ℤ) :
    List PlannedEntry × ℤ :=
  let lbl := weekLabel week
  (mainLiftEntries sess "Barbell Squat" "Legs" squat1 week lbl ++
     accessoryEntriesWeighted sess squatDayAccessories ++
   mainLiftEntries (sess + 1) "Flat Barbell Bench Press" "Push" bench1 week lbl ++
     accessoryEntriesPlain (sess + 1) benchDayAccessories ++
   mainLiftEntries (sess + 2) "Deadlift" "Pull" dead1 week lbl ++
     accessoryEntriesWeighted (sess + 2) deadliftDayAccessories,
   sess + 3)

/-- One cycle (`for week in range(1, 5)`), threading the session counter. -/
def cycleEntries (squat1 bench1 dead1 : ℚ) (sess : ℤ) :
    List PlannedEntry × ℤ :=
  [1, 2, 3, 4].foldl
    (fun acc week =>
      let step := weekEntries squat1 bench1 dead1 week acc.2
      (acc.1 ++ step.1, step.2))
    ([], sess)

/-- `WendlerService.generate_progression` with resolved starting maxes and
starting session (`for cycle_idx in range(num_cycles)`, with the
per-cycle progressive overload `+10/+5/+10`). -/
def generate_progression (numCycles : ℕ)
    (startingSquat startingBench startingDeadlift : ℚ)
    (startSession : ℤ) : List PlannedEntry :=
  ((List.range numCycles).foldl
    (fun acc cycleIdx =>
      let squat1 := startingSquat + cycleIdx * 10
      let bench1 := startingBench + cycleIdx * 5
      let dead1 := startingDeadlift + cycleIdx * 10
      let step := cycleEntries squat1 bench1 dead1 acc.2
      (acc.1 ++ step.1, step.2))
    ([], startSession)).1

/-! ## `app/services/progression_service.py` — the progression projector

`get_progression_data(exercise, include_upcoming=True)` reads
`workout_repo.get_by_exercise(exercise)` (the historical rows of that
exercise, date-ascending) and `upcoming_repo.get_all()` (every upcoming
row, session-ascending); we pass both lists as parameters and `today`
(Pacific-timezone current date) explicitly.  Python dicts are modelled as
association lists: insertion appends, value update replaces in place, so
`list(d.values())` preserves first-insertion key order. -/

/-- The fields of a serialized historical workout row that the projector
reads.  `reps` is `int | str | None` after `WorkoutRepository._serialize`
(digit strings become ints). -/
structure HRow where
  date : ℤ
  exercise : String
  weight : Option ℚ
  weight_unit : String
  reps : RVal
  comment : Option String
  deriving DecidableEq, Repr

/-- The fields of a serialized upcoming workout row that the projector
reads. -/
structure URow where
  session : ℤ
  exercise : String
  weight : Option ℚ
  weight_unit : String
  reps : RVal
  comment : Option String
  deriving DecidableEq, Repr

/-- Python truthiness of a `float | None` weight (`if not weight`). -/
def weightTruthy : Option ℚ → Bool
  | none => false
  | some q => q ≠ 0

/-- Python truthiness of an `int | str | None` reps value. -/
def repsTruthy : RVal → Bool
  | .rint n => n ≠ 0
  | .rstr s => s ≠ []
  | .rnone => false

/-- `calculate_estimated_1rm(weight, reps)` as the projector calls it, on a
`float | None` weight. -/
def estOf (w : Option ℚ) (r : RVal) : ℚ :=
  calculate_estimated_1rm (match w with | some q => .wnum q | none => .wnone) r

/-- One point of the historical series (a value of `historical_by_date`). -/
structure HistPoint where
  date : ℤ
  weight : ℚ
  weight_unit : String
  reps : RVal
  estimated_1rm : ℚ
  comment : Option String
  deriving DecidableEq, Repr

/-- One point of the upcoming series. -/
structure UPoint where
  session : ℤ
  projected_date : ℤ
  weight : ℚ
  weight_unit : String
  reps : RVal
  estimated_1rm : ℚ
  comment : Option String
  deriving DecidableEq, Repr

/-- Python `d[k]`-style lookup in an association list. -/
def assocFind {α : Type} (l : List (ℤ × α)) (k : ℤ) : Option α :=
  (l.find? (fun p => p.1 = k)).map Prod.snd

/-- In-place value update for the first occurrence of key `k`. -/
def assocReplace {α : Type} (l : List (ℤ × α)) (k : ℤ) (v : α) :
    List (ℤ × α) :=
  match l with
  | [] => []
  | p :: rest =>
      if p.1 = k then (k, v) :: rest else p :: assocReplace rest k v

/-- The dict literal the historical loop stores for a kept row
(`weight` is truthy here, hence present; `getD 0` is never exercised). -/
def toHistPoint (w : HRow) (e : ℚ) : HistPoint :=
  { date := w.date
    weight := w.weight.getD 0
    weight_unit := w.weight_unit
    reps := w.reps
    estimated_1rm := e
    comment := w.comment }

/-- Loop body over `historical_workouts` building `historical_by_date`:
skip rows failing `if not weight or not reps`, insert the first row of a
date, replace when a strictly greater estimated 1RM appears. -/
def histStep (acc : List (ℤ × HistPoint)) (w : HRow) :
    List (ℤ × HistPoint) :=
  if weightTruthy w.weight && repsTruthy w.reps then
    let e := estOf w.weight w.reps
    match assocFind acc w.date with
    | none => acc ++ [(w.date, toHistPoint w e)]
    | some p =>
        if e > p.estimated_1rm then assocReplace acc w.date (toHistPoint w e)
        else acc
  else acc

/-- `historical_by_date` after the whole loop, starting from the rows the
service keeps with `w.get('weight') is not None`. -/
def histDict (rows : List HRow) : List (ℤ × HistPoint) :=
  (rows.filter (fun w => w.weight ≠ none)).foldl histStep []

/-- `historical = list(historical_by_date.values()); historical.sort(key=date)`
(Python's sort is stable; dates are dict keys, hence pairwise distinct, so
any correct sort yields the same list). -/
def histSeries (rows : List HRow) : List HistPoint :=
  ((histDict rows).map Prod.snd).insertionSort (fun p q => p.date ≤ q.date)

/-- First-seen deduplicated session numbers (`sessions` dict key order). -/
def firstSeenKeys (rows : List URow) : List ℤ :=
  rows.foldl (fun acc w => if w.session ∈ acc then acc else acc ++ [w.session]) []

/-- `sorted(sessions.keys())`. -/
def sortedSessionKeys (rows : List URow) : List ℤ :=
  (firstSeenKeys rows).insertionSort (· ≤ ·)

/-- Projection start date: `last historical date + 2 days`, else `today`.
(The `fromisoformat` failure branch cannot arise in the integer-date
model, where every stored date is well-formed.) -/
def startDate (historical : List HistPoint) (today : ℤ) : ℤ :=
  match historical.getLast? with
  | some p => p.date + 2
  | none => today

/-- `session_to_date`: walk the sorted session numbers, assigning
`start_date` and advancing by two days per session. -/
def sessionDateMap (keys : List ℤ) (start : ℤ) : List (ℤ × ℤ) :=
  (keys.foldl (fun acc s => (acc.1 ++ [(s, acc.2)], acc.2 + 2)) ([], start)).1

/-- The dict the upcoming loop stores for a kept row (`weight` is truthy
here, hence present; `getD 0` is never exercised). -/
def mkUPoint (s pd : ℤ) (w : URow) : UPoint :=
  { session := s
    projected_date := pd
    weight := w.weight.getD 0
    weight_unit := w.weight_unit
    reps := w.reps
    estimated_1rm := estOf w.weight w.reps
    comment := w.comment }

/-- Inner best-set fold of the upcoming loop: `best_workout = None`,
`best_estimated_1rm = 0`, keep a row when its estimated 1RM is strictly
greater than the best so far. -/
def bestUpStep (s pd : ℤ) (best : Option UPoint × ℚ) (w : URow) :
    Option UPoint × ℚ :=
  if weightTruthy w.weight && repsTruthy w.reps then
    let e := estOf w.weight w.reps
    if e > best.2 then (some (mkUPoint s pd w), e)
    else best
  else best

/-- The body of `for session_num in sorted(sessions.keys())`: filter the
session's rows to the target exercise with truthy weight, skip empty
sessions, keep the best row if one was found. -/
def upcomingStep (allUpcoming : List URow) (exercise : String) (dateMap : List (ℤ × ℤ))
    (acc : List UPoint) (s : ℤ) : List UPoint :=
  let sessionRows := allUpcoming.filter (fun w => w.session = s)
  let exerciseRows :=
    sessionRows.filter (fun w => w.exercise = exercise && weightTruthy w.weight)
  if exerciseRows = [] then acc
  else
    let pd := (assocFind dateMap s).getD 0
    match (exerciseRows.foldl (bestUpStep s pd) (none, 0)).1 with
    | none => acc
    | some p => acc ++ [p]

/-- The upcoming series of `get_progression_data`. -/
def upcomingSeries (allUpcoming : List URow) (exercise : String)
    (historical : List HistPoint) (today : ℤ) : List UPoint :=
  let start := startDate historical today
  let dateMap := sessionDateMap (sortedSessionKeys allUpcoming) start
  (sortedSessionKeys allUpcoming).foldl
    (upcomingStep allUpcoming exercise dateMap) []

/-- The result dict of `get_progression_data`. -/
structure ProgressionData where
  exercise : String
  historical : List HistPoint
  upcoming : List UPoint
  deriving DecidableEq, Repr

/-- `ProgressionService.get_progression_data`, with the repository reads
passed in: `historicalRows` is `workout_repo.get_by_exercise(exercise)`
and `allUpcoming` is `upcoming_repo.get_all()`. -/
def get_progression_data (exercise : String) (historicalRows : List HRow)
    (allUpcoming : List URow) (today : ℤ)
    (includeUpcoming : Bool := true) : ProgressionData :=
  let historical := histSeries historicalRows
  { exercise := exercise
    historical := historical
    upcoming :=
      if includeUpcoming then
        upcomingSeries allUpcoming exercise historical today
      else [] }

/-- `WorkoutRepository.get_by_exercise`: the rows of one exercise.  (The
SQL query also orders them date-ascending; the theorems below hold for an
arbitrary row order, which subsumes the database's choice on equal
dates.) -/
def getByExercise (table : List HRow) (exercise : String) : List HRow :=
  table.filter (fun w => w.exercise = exercise)

/-! ## `app/services/liftoscript_service.py` — the program-script parser

The parser's four regular expressions are deterministic on their inputs
(their quantifiers never need backtracking beyond the explicit
alternatives coded below), so each `search` is modelled as a scan that
attempts an anchored match at every successive start position, exactly as
`re.search` does:

* `SET_PATTERN = (\d+)(\+)?x(\d+)(\+)?(?:-(\d+))?`
* `WEIGHT_PATTERN = (\d+(?:\.\d+)?)(lb|kg|%)(\+)?`
* `RPE_PATTERN = @(\d+(?:\.\d+)?)(\+)?`
* `REST_PATTERN = (\d+)(s|m)`
-/

/-- Substring containment, Python `needle in hay`. -/
def containsSub (needle hay : List Char) : Bool :=
  match hay with
  | [] => needle.isPrefixOf ([] : List Char)
  | _ :: rest => needle.isPrefixOf hay || containsSub needle rest

/-- The captures of `SET_PATTERN`.  `num_sets` is `int(group(1))`; the
reps groups are kept as digit strings because the source rebuilds and
re-parses a reps string from them. -/
structure SetMatch where
  numSets : ℕ
  quickAdd : Bool
  repsDigits : List Char
  amrap : Bool
  maxRepsDigits : Option (List Char)
  deriving DecidableEq, Repr

/-- Anchored match of `SET_PATTERN` at the start of `cs`. -/
def setMatchCore (cs : List Char) : Option SetMatch :=
  let d1 := cs.takeWhile Char.isDigit
  if d1 = [] then none
  else
    let k : Bool × List Char ⊕ Unit :=
      match cs.dropWhile Char.isDigit with
      | '+' :: 'x' :: r => .inl (true, r)
      | 'x' :: r => .inl (false, r)
      | _ => .inr ()
    match k with
    | .inr () => none
    | .inl (quick, r2) =>
      let d2 := r2.takeWhile Char.isDigit
      if d2 = [] then none
      else
        let r3 := r2.dropWhile Char.isDigit
        let ar : Bool × List Char :=
          match r3 with
          | '+' :: r => (true, r)
          | r => (false, r)
        let maxd : Option (List Char) :=
          match ar.2 with
          | '-' :: r5 =>
              let d3 := r5.takeWhile Char.isDigit
              if d3 = [] then none else some d3
          | _ => none
        some ⟨natOfDigits d1, quick, d2, ar.1, maxd⟩

/-- `SET_PATTERN.search`. -/
def setSearch : List Char → Option SetMatch
  | [] => none
  | c :: cs =>
      match setMatchCore (c :: cs) with
      | some m => some m
      | none => setSearch cs

/-- Weight unit alternatives `lb|kg|%`. -/
inductive WUnit where
  | lb
  | kg
  | pct
  deriving DecidableEq, Repr

/-- The captures of `WEIGHT_PATTERN`: `float(group(1))`, the unit, and
whether the `+` logging indicator is present. -/
structure WeightMatch where
  value : ℚ
  unit : WUnit
  logging : Bool
  deriving DecidableEq, Repr

/-- Match of `lb|kg|%` at the start of `cs`, returning the remainder. -/
def unitMatch (cs : List Char) : Option (WUnit × List Char) :=
  match cs with
  | 'l' :: 'b' :: r => some (.lb, r)
  | 'k' :: 'g' :: r => some (.kg, r)
  | '%' :: r => some (.pct, r)
  | _ => none

/-- Anchored match of `WEIGHT_PATTERN` at the start of `cs`.  When the
optional fraction `(?:\.\d+)?` is taken but no unit follows it, the regex
falls back to matching the unit right after the integer digits, which
always fails against the pending `'.'`; so the fraction, when present,
must be followed by a unit. -/
def weightMatchCore (cs : List Char) : Option WeightMatch :=
  let d1 := cs.takeWhile Char.isDigit
  if d1 = [] then none
  else
    let r1 := cs.dropWhile Char.isDigit
    let withFrac : Option (ℚ × List Char) :=
      match r1 with
      | '.' :: r2 =>
          let f := r2.takeWhile Char.isDigit
          if f = [] then none
          else some ((natOfDigits d1 : ℚ) +
              (natOfDigits f : ℚ) / (10 : ℚ) ^ f.length,
            r2.dropWhile Char.isDigit)
      | _ => none
    let attempt : Option (ℚ × List Char) :=
      match withFrac with
      | some (v, r) => if (unitMatch r).isSome then some (v, r) else none
      | none => some ((natOfDigits d1 : ℚ), r1)
    match attempt with
    | none => none
    | some (v, r) =>
        match unitMatch r with
        | none => none
        | some (u, r') =>
            some ⟨v, u, match r' with | '+' :: _ => true | _ => false⟩

/-- `WEIGHT_PATTERN.search`. -/
def weightSearch : List Char → Option WeightMatch
  | [] => none
  | c :: cs =>
      match weightMatchCore (c :: cs) with
      | some m => some m
      | none => weightSearch cs

/-- The captures of `RPE_PATTERN`: the raw numeric text of group 1 (the
source formats it back into strings) and the logging indicator. -/
structure RpeMatch where
  raw : List Char
  logging : Bool
  deriving DecidableEq, Repr

/-- Anchored match of `RPE_PATTERN` at the start of `cs`. -/
def rpeMatchCore (cs : List Char) : Option RpeMatch :=
  match cs with
  | '@' :: r1 =>
      let d1 := r1.takeWhile Char.isDigit
      if d1 = [] then none
      else
        let r2 := r1.dropWhile Char.isDigit
        let rawFrac : List Char × List Char :=
          match r2 with
          | '.' :: r3 =>
              let f := r3.takeWhile Char.isDigit
              if f = [] then ([], r2) else ('.' :: f, r3.dropWhile Char.isDigit)
          | _ => ([], r2)
        some ⟨d1 ++ rawFrac.1, match rawFrac.2 with | '+' :: _ => true | _ => false⟩
  | _ => none

/-- `RPE_PATTERN.search`. -/
def rpeSearch : List Char → Option RpeMatch
  | [] => none
  | c :: cs =>
      match rpeMatchCore (c :: cs) with
      | some m => some m
      | none => rpeSearch cs

/-- The captures of `REST_PATTERN`: `int(group(1))` and the unit letter. -/
structure RestMatch where
  value : ℕ
  unit : Char
  deriving DecidableEq, Repr

/-- Anchored match of `REST_PATTERN` at the start of `cs`. -/
def restMatchCore (cs : List Char) : Option RestMatch :=
  let d1 := cs.takeWhile Char.isDigit
  if d1 = [] then none
  else
    match cs.dropWhile Char.isDigit with
    | 's' :: _ => some ⟨natOfDigits d1, 's'⟩
    | 'm' :: _ => some ⟨natOfDigits d1, 'm'⟩
    | _ => none

/-- `REST_PATTERN.search`. -/
def restSearch : List Char → Option RestMatch
  | [] => none
  | c :: cs =>
      match restMatchCore (c :: cs) with
      | some m => some m
      | none => restSearch cs

/-- Anchored match (`re.match`, `$`-terminated) of
`EXERCISE_NAME_PATTERN = ^([^,]+?)(?:,\s*(.+?))?$`: group 1 is the
(nonempty) text before the first comma; when a comma is present, group 2
matches the nonempty remainder after it.  The regex's `\s*` only shifts
leading whitespace out of group 2, and both callers immediately `.strip()`
group 2, so group 2 is modelled as the raw remainder. -/
def nameMatch (s : List Char) : Option (List Char × Option (List Char)) :=
  match pySplitOn ',' s with
  | [] => none
  | [x] => if x = [] then none else some (x, none)
  | x :: rest =>
      let after := List.intercalate [','] rest
      if x = [] ∨ after = [] then none else some (x, some after)

/-- `_convert_kg_to_lbs(kg) = kg * 2.20462`. -/
def convert_kg_to_lbs (kg : ℚ) : ℚ := kg * kgToLbFactor

/-- `_get_max_for_exercise`: substring dispatch on the lowercased name,
defaulting to the bench max. -/
def getMaxForExercise (name : List Char) (squatMax benchMax deadliftMax : ℚ) : ℚ :=
  let lower := name.map Char.toLower
  if containsSub "squat".data lower then squatMax
  else if containsSub "bench".data lower || containsSub "press".data lower then
    benchMax
  else if containsSub "deadlift".data lower then deadliftMax
  else benchMax

/-- An RPE value as stored in a set definition: `float(rpe_value)` (with
the string Python's `str()` later prints for it) or, with the logging
indicator, the string `f"{rpe_value}+"`. -/
inductive RpeVal where
  | fval (value : ℚ) (str : List Char)
  | sval (s : List Char)
  deriving DecidableEq, Repr

/-- `str(float(raw))` for a raw regex number `digits[.digits]`: Python
prints the shortest decimal that round-trips, which for the short
literals the RPE regex produces is the literal with leading integer
zeros and trailing fraction zeros removed (and `.0` for a whole
number). -/
def pyFloatReprOfRaw (raw : List Char) : List Char :=
  let ip := raw.takeWhile Char.isDigit
  let rest := raw.dropWhile Char.isDigit
  let frac := match rest with | '.' :: f => f | _ => []
  let fracTrim := (frac.reverse.dropWhile (· = '0')).reverse
  (toString (natOfDigits ip)).data ++
    ('.' :: (if fracTrim = [] then ['0'] else fracTrim))

/-- `f"{rest_value}{rest_unit}"`. -/
def restStr (m : RestMatch) : List Char :=
  (toString m.value).data ++ [m.unit]

/-- The global-modifier state threaded through `_parse_set_spec`'s first
loop (`global_rest`, `global_weight`, `global_weight_unit`,
`global_weight_logging`). -/
structure GlobalMods where
  rest : Option (List Char)
  weight : Option ℤ
  weightUnit : String
  weightLogging : Bool
  deriving DecidableEq, Repr

/-- Initial global-modifier state. -/
def initGlobals : GlobalMods :=
  { rest := none, weight := none, weightUnit := "lbs", weightLogging := false }

/-- Python truthiness of the `int | None` global weight
(`not global_weight`). -/
def gwTruthy : Option ℤ → Bool
  | none => false
  | some n => n ≠ 0

/-- Resolution of one weight match: percentage of the exercise's 1RM,
kg→lb conversion, or plain pounds — each rounded with `round`. -/
def resolveWeightMatch (exName : List Char) (sq bn dl : ℚ)
    (wm : WeightMatch) : ℤ :=
  match wm.unit with
  | .pct => pyRound (getMaxForExercise exName sq bn dl * (wm.value / 100))
  | .kg => pyRound (convert_kg_to_lbs wm.value)
  | .lb => pyRound wm.value

/-- The weight half of the global-modifier loop body (reached when the
rest branch does not `continue`). -/
def globalsWeightStep (exName : List Char) (sq bn dl : ℚ)
    (st : GlobalMods) (mod : List Char) : GlobalMods :=
  match weightSearch mod with
  | some wm =>
      if gwTruthy st.weight then st
      else
        { st with
            weight := some (resolveWeightMatch exName sq bn dl wm)
            weightUnit := "lbs"
            weightLogging := wm.logging }
  | none => st

/-- One iteration of `for mod in global_modifiers`: a rest match fills an
unset `global_rest` and skips the weight check; otherwise the weight
check runs on the same modifier. -/
def globalsStep (exName : List Char) (sq bn dl : ℚ)
    (st : GlobalMods) (mod : List Char) : GlobalMods :=
  match restSearch mod with
  | some rm =>
      if st.rest = none then { st with rest := some (restStr rm) }
      else globalsWeightStep exName sq bn dl st mod
  | none => globalsWeightStep exName sq bn dl st mod

/-- One parsed set definition (the dict `_parse_set_spec` appends). -/
structure SetDef where
  num_sets : ℕ
  reps : List Char
  weight : Option ℤ
  weight_unit : String
  rpe : Option RpeVal
  rest : Option (List Char)
  is_quick_add : Bool
  is_log_weight : Bool
  deriving DecidableEq, Repr

/-- The per-part body of `_parse_set_spec`'s main loop: skip parts without
a set match, rebuild the reps string (`5+`, `8-12`, or plain), and resolve
the part's weight, falling back to the global weight. -/
def setDefOfPart (exName : List Char) (sq bn dl : ℚ) (gm : GlobalMods)
    (rpe : Option RpeVal) (rest : Option (List Char))
    (part : List Char) : Option SetDef :=
  match setSearch part with
  | none => none
  | some sm =>
      let repsStr :=
        if sm.amrap then sm.repsDigits ++ ['+']
        else
          match sm.maxRepsDigits with
          | some d => sm.repsDigits ++ ('-' :: d)
          | none => sm.repsDigits
      let wul : Option ℤ × String × Bool :=
        match weightSearch part with
        | some wm =>
            (some (resolveWeightMatch exName sq bn dl wm), "lbs", wm.logging)
        | none => (gm.weight, gm.weightUnit, gm.weightLogging)
      some
        { num_sets := sm.numSets
          reps := repsStr
          weight := wul.1
          weight_unit := wul.2.1
          rpe := rpe
          rest := rest
          is_quick_add := sm.quickAdd
          is_log_weight := wul.2.2 }

/-- `LiftoscriptParser._parse_set_spec`. -/
def parse_set_spec (setSpec : List Char) (exName : List Char)
    (sq bn dl : ℚ) (globalModifiers : List (List Char)) : List SetDef :=
  let gm := globalModifiers.foldl (globalsStep exName sq bn dl) initGlobals
  let rpe : Option RpeVal :=
    (rpeSearch setSpec).map (fun m =>
      if m.logging then .sval (m.raw ++ ['+'])
      else .fval ((pyFloatOfString m.raw).getD 0) (pyFloatReprOfRaw m.raw))
  let rest : Option (List Char) :=
    match restSearch setSpec with
    | some rm => some (restStr rm)
    | none => gm.rest
  let parts := (pySplitOn ',' setSpec).map pyStrip
  parts.filterMap (setDefOfPart exName sq bn dl gm rpe rest)

/-- Reps-string re-parse done per emitted workout: AMRAP flag and numeric
reps value (`None` on parse failure, mirroring the swallowed
`ValueError`). -/
def repsValueOf (repsStr : List Char) : Option ℤ × Bool :=
  if repsStr = [] then (none, false)
  else if repsStr.getLast? = some '+' then
    (pyIntOfString repsStr.dropLast, true)
  else if '-' ∈ repsStr then
    (pyIntOfString ((pySplitOn '-' repsStr).headD []), false)
  else (pyIntOfString repsStr, false)

/-- Python truthiness of an RPE value (`if set_def.get("rpe")`). -/
def rpeTruthy : Option RpeVal → Bool
  | none => false
  | some (.fval v _) => v ≠ 0
  | some (.sval s) => s ≠ []

/-- Python truthiness of an equipment capture (`if equipment:`;
`None` and the empty string are both falsy). -/
def equipTruthy : Option (List Char) → Bool
  | none => false
  | some e => e ≠ []

/-- The comment assembled for one workout entry from the AMRAP flag,
equipment, quick-add/log-weight markers, RPE and rest. -/
def buildComment (isAmrap : Bool) (equipment : Option (List Char))
    (sd : SetDef) : Option String :=
  let rpePart : List (List Char) :=
    if rpeTruthy sd.rpe then
      let rpeStr := match sd.rpe with
        | some (.fval _ s) => s
        | some (.sval s) => s
        | none => []
      if rpeStr.getLast? = some '+' then
        ["Log RPE ".data ++ rpeStr.dropLast]
      else ["RPE ".data ++ rpeStr]
    else []
  let restPart : List (List Char) :=
    match sd.rest with
    | some r => if r ≠ [] then ["Rest ".data ++ r] else []
    | none => []
  let parts : List (List Char) :=
    (if isAmrap then ["AMRAP".data] else []) ++
    (match equipment with
     | some e => if e ≠ [] then ["Equipment: ".data ++ e] else []
     | none => []) ++
    (if sd.is_quick_add then ["Quick add sets".data] else []) ++
    (if sd.is_log_weight then ["Log weight".data] else []) ++
    rpePart ++ restPart
  if parts = [] then none
  else some (String.mk (List.intercalate ", ".data parts))

/-- The entries one exercise line contributes: for each set definition,
`num_sets` identical workout records at the current session number. -/
def entriesForLine (sess : ℤ) (exName : List Char) (category : String)
    (equipment : Option (List Char)) (sds : List SetDef) :
    List PlannedEntry :=
  sds.flatMap (fun sd =>
    let rv := repsValueOf sd.reps
    let comment := buildComment rv.2 equipment sd
    List.replicate sd.num_sets
      { session := sess
        exercise := String.mk exName
        category := category
        weight := sd.weight.map (fun n => (n : ℚ))
        weight_unit := sd.weight_unit
        reps := rv.1
        comment := comment })

/-- Lookup in the validated `exercise_categories` dict. -/
def strLookup (l : List (String × String)) (k : String) : Option String :=
  (l.find? (fun p => p.1 = k)).map Prod.snd

/-- The mutable cycle state: `self.session_num` and `in_session`. -/
structure CycleState where
  sessionNum : ℤ
  inSession : Bool
  deriving DecidableEq, Repr

/-- The body of `_parse_single_cycle`'s line loop. -/
def lineStep (sq bn dl : ℚ) (cats : List (String × String))
    (acc : List PlannedEntry × CycleState) (rawLine : List Char) :
    List PlannedEntry × CycleState :=
  let line := pyStrip rawLine
  if line = [] ∨ pyStartsWith "#".data line ∨ pyStartsWith "//".data line then
    if line = [] ∧ acc.2.inSession then
      (acc.1, ⟨acc.2.sessionNum + 1, false⟩)
    else acc
  else if '/' ∈ line then
    let st : CycleState := { acc.2 with inSession := true }
    let parts := (pySplitOn '/' line).map pyStrip
    match nameMatch (parts.headD []) with
    | none => (acc.1, st)
    | some g =>
        let exerciseName := pyStrip g.1
        let equipment := g.2.map pyStrip
        let specSel :=
          (parts.drop 1).foldl
            (fun (sel : Option (List Char) × List (List Char)) part =>
              if part = [] then sel
              else if sel.1 = none ∧ (setSearch part).isSome then
                (some part, sel.2)
              else (sel.1, sel.2 ++ [part]))
            (none, [])
        let setSpec := specSel.1.getD []
        let category := (strLookup cats (String.mk exerciseName)).getD "Other"
        let sds := parse_set_spec setSpec exerciseName sq bn dl specSel.2
        (acc.1 ++ entriesForLine st.sessionNum exerciseName category equipment sds,
         st)
  else acc

/-- `LiftoscriptParser._parse_single_cycle`: walk the lines, then bump the
session counter once more if the cycle ended inside a session.  Returns
the cycle's entries and the updated counter. -/
def parseSingleCycle (lines : List (List Char)) (sq bn dl : ℚ)
    (cats : List (String × String)) (sessionNum : ℤ) :
    List PlannedEntry × ℤ :=
  let r := lines.foldl (lineStep sq bn dl cats) ([], ⟨sessionNum, false⟩)
  (r.1, if r.2.inSession then r.2.sessionNum + 1 else r.2.sessionNum)

/-- The exercise names `_validate_exercises` collects (a Python `set`;
modelled in first-appearance order — every later use is
order-independent). -/
def collectExerciseNames (lines : List (List Char)) : List String :=
  lines.foldl
    (fun acc rawLine =>
      let line := pyStrip rawLine
      if line = [] ∨ pyStartsWith "#".data line ∨ pyStartsWith "//".data line then
        acc
      else if '/' ∈ line then
        match nameMatch ((pySplitOn '/' line).headD []) with
        | some g =>
            let n := String.mk (pyStrip g.1)
            if n ∈ acc then acc else acc ++ [n]
        | none => acc
      else acc)
    []

/-- The parse error raised by `_validate_exercises`, carrying the sorted
unknown exercise names its message enumerates. -/
inductive LiftoParseError where
  | unknownExercises (names : List String)
  deriving DecidableEq, Repr

/-- `LiftoscriptParser._validate_exercises` against an injected
`exercise_repo.get_by_name` lookup: either the name→category dict or the
batched unknown-exercise error. -/
def validateExercises (lookup : String → Option String)
    (lines : List (List Char)) :
    Except LiftoParseError (List (String × String)) :=
  let names := collectExerciseNames lines
  let cats := names.filterMap (fun n => (lookup n).map (fun c => (n, c)))
  let unknown := names.filter (fun n => lookup n = none)
  if unknown = [] then .ok cats
  else .error (.unknownExercises (unknown.insertionSort (· ≤ ·)))

/-- `LiftoscriptParser.parse`: validate, reset the session counter to 1,
then walk the whole script once per cycle, threading the counter. -/
def liftoscript_parse (lookup : String → Option String) (script : List Char)
    (squatMax benchMax deadliftMax : ℚ) (numCycles : ℕ) :
    Except LiftoParseError (List PlannedEntry) :=
  let lines := pySplitOn '\n' (pyStrip script)
  match validateExercises lookup lines with
  | .error e => .error e
  | .ok cats =>
      .ok ((List.range numCycles).foldl
        (fun acc _ =>
          let r := parseSingleCycle lines squatMax benchMax deadliftMax cats acc.2
          (acc.1 ++ r.1, r.2))
        ([], (1 : ℤ))).1

/-! ## Claim theorems -/

/-- C7: the 1RM estimator returns `weight * (1 + 0.033 * reps)` rounded to
one decimal place for numeric inputs, extracts the numeric part of a reps
string such as `"5+"`, and returns `0` for any missing or non-numeric
input instead of raising; `estimate(100, "5+") = 116.5` and
`estimate("bad", "x") = 0.0`. -/
theorem estimator_spec :
    (∀ (q : ℚ) (n : ℤ),
      calculate_estimated_1rm (.wnum q) (.rint n) =
        pyRound1 (q * (1 + (33 / 1000 : ℚ) * n))) ∧
    calculate_estimated_1rm (.wnum 100) (.rstr "5+".data) = 1165 / 10 ∧
    calculate_estimated_1rm (.wstr "bad".data) (.rstr "x".data) = 0 ∧
    (∀ w, calculate_estimated_1rm w .rnone = 0) ∧
    (∀ r, calculate_estimated_1rm .wnone r = 0) ∧
    (∀ w r, repsToInt r = none → calculate_estimated_1rm w r = 0) ∧
    (∀ w r, weightToFloat w = none → calculate_estimated_1rm w r = 0) := by
  refine ⟨?_, ?_, ?_, ?_, ?_, ?_, ?_⟩
  · intro q n
    have : (33 / 1000 : ℚ) * n * q + q = q * (1 + (33 / 1000 : ℚ) * n) := by ring
    simp [calculate_estimated_1rm, repsToInt, weightToFloat, this]
  · have h : repsToInt (.rstr "5+".data) = some 5 := by decide
    simp [calculate_estimated_1rm, h, weightToFloat, pyRound1]
    norm_num [pyRound]
  · have h : repsToInt (.rstr "x".data) = (none : Option ℤ) := by decide
    simp [calculate_estimated_1rm, h]
  · intro w; simp [calculate_estimated_1rm, repsToInt]
  · intro r
    cases hr : repsToInt r with
    | none => simp [calculate_estimated_1rm, hr]
    | some n => simp [calculate_estimated_1rm, hr, weightToFloat]
  · intro w r h; simp [calculate_estimated_1rm, h]
  · intro w r h
    cases hr : repsToInt r with
    | none => simp [calculate_estimated_1rm, hr]
    | some n => simp [calculate_estimated_1rm, hr, h]

theorem estimator_spec_witness :
    calculate_estimated_1rm (.wnum 100) (.rstr "x".data) = 0 :=
  estimator_spec.2.2.2.2.2.1 (.wnum 100) (.rstr "x".data) (by decide)

/-- C9: every main-lift weight `calculate_weights` emits, for any
one-rep max and any week 1–4, is congruent to 5 modulo 10 — an odd
multiple of 5, never a multiple of 10. -/
theorem calculate_weights_never_multiple_of_ten
    (maxWeight : ℚ) (week : ℤ)
    (_hweek : week = 1 ∨ week = 2 ∨ week = 3 ∨ week = 4)
    (w r : ℤ) (hmem : (w, r) ∈ calculate_weights maxWeight week) :
    w % 10 = 5 ∧ ¬ (10 ∣ w) := by
  simp only [calculate_weights, List.mem_map] at hmem
  obtain ⟨pr, -, heq⟩ := hmem
  have hw : w = (if pyRound (maxWeight * pr.1 / 5) * 5 % 10 = 0
      then pyRound (maxWeight * pr.1 / 5) * 5 - 5
      else pyRound (maxWeight * pr.1 / 5) * 5) := by
    simpa using (congrArg Prod.fst heq).symm
  rcases eq_or_ne (pyRound (maxWeight * pr.1 / 5) * 5 % 10) 0 with h0 | h0 <;>
    [rw [if_pos h0] at hw; rw [if_neg h0] at hw] <;> omega

/-- Concrete evaluation of `calculate_weights` at the claims' test input. -/
lemma calc_weights_200_1 :
    calculate_weights 200 1 = [(125, 5), (145, 5), (165, 5)] := by
  norm_num [calculate_weights, WEEK_PERCENTAGES, pyRound]

theorem calculate_weights_never_multiple_of_ten_witness :
    (165 : ℤ) % 10 = 5 ∧ ¬ ((10 : ℤ) ∣ 165) :=
  calculate_weights_never_multiple_of_ten 200 1 (Or.inl rfl) 165 5
    (by rw [calc_weights_200_1]; simp)

set_option maxHeartbeats 2000000 in
/-- C4: `generate_progression(num_cycles=1, squat=200, bench=150,
deadlift=250)` starting at session 1 yields exactly 72 entries over
sessions 1–12 (six per session), and the week-1 squat main sets carry
weights 125/145/165 — but all three with plain integer reps 5: the
generator never emits an AMRAP `"5+"` marker, although its own test suite
(`test_wendler_calculate_weights_rounding_rules`) expects
`(165, "5+")`. -/
theorem generator_week1_and_counts :
    (generate_progression 1 200 150 250 1).length = 72 ∧
    (generate_progression 1 200 150 250 1).map PlannedEntry.session =
      ((List.range 12).map (fun k => List.replicate 6 ((k : ℤ) + 1))).flatten ∧
    calculate_weights 200 1 = [(125, 5), (145, 5), (165, 5)] ∧
    ((generate_progression 1 200 150 250 1).take 3).map
      (fun e => (e.exercise, e.weight, e.reps)) =
      [("Barbell Squat", some 125, some 5),
       ("Barbell Squat", some 145, some 5),
       ("Barbell Squat", some 165, some 5)] := by
  refine ⟨?_, ?_, calc_weights_200_1, ?_⟩ <;>
  · norm_num [generate_progression, cycleEntries, weekEntries, mainLiftEntries,
      accessoryEntriesWeighted, accessoryEntriesPlain, calculate_weights,
      WEEK_PERCENTAGES, List.enum, List.range_succ, pyRound,
      List.replicate, squatDayAccessories, benchDayAccessories,
      deadliftDayAccessories, weekLabel]

/-- The exercise lookup injected into the concrete parser evaluations
below: the exercises of the scripts under test with their categories. -/
def demoLookup : String → Option String := fun n =>
  if n = "Flat Barbell Bench Press" then some "Chest"
  else if n = "A" then some "Legs"
  else if n = "Notes" then some "Other"
  else none


set_option maxHeartbeats 2000000 in
/-- C1: the parser resolves a percentage token with plain `round()` to the
nearest integer, not to the nearest multiple of 5: a `77%` token against a
1RM of 203 resolves to `round(156.31) = 156`, although the repo's own test
`test_parse_weight_rounding_to_nearest_5` expects 155. -/
theorem percentage_resolution_at_203_77 :
    resolveWeightMatch "Flat Barbell Bench Press".data 225 203 275
      ⟨77, .pct, false⟩ = 156 ∧
    (liftoscript_parse demoLookup
        "Flat Barbell Bench Press / 1x5 77%".data 225 203 275 1).map
      (fun ws => ws.map (fun e => e.weight)) = .ok [some 156] := by
  have hres : pyRound ((203 : ℚ) * (77 / 100)) = 156 := by norm_num [pyRound]
  constructor
  · simp [resolveWeightMatch, getMaxForExercise, containsSub, hres]
  · simp [liftoscript_parse, validateExercises, collectExerciseNames,
      parseSingleCycle, lineStep, pyStrip, pySplitOn, pyStartsWith, nameMatch,
      parse_set_spec, setDefOfPart, setSearch, setMatchCore, weightSearch,
      weightMatchCore, rpeSearch, rpeMatchCore, restSearch, restMatchCore,
      unitMatch, globalsStep, globalsWeightStep, initGlobals,
      resolveWeightMatch, getMaxForExercise, containsSub, entriesForLine,
      repsValueOf, buildComment, rpeTruthy, equipTruthy, strLookup,
      natOfDigits, pyIntOfString, demoLookup, List.range_succ, hres,
      convert_kg_to_lbs, Except.map]

lemma entriesForLine_session (sess : ℤ) (exName : List Char)
    (category : String) (equipment : Option (List Char)) (sds : List SetDef) :
    ∀ e ∈ entriesForLine sess exName category equipment sds,
      e.session = sess := by
  intro e he
  simp only [entriesForLine, List.mem_flatMap] at he
  obtain ⟨sd, -, he⟩ := he
  rw [List.eq_of_mem_replicate he]

/-- Invariant threaded through `_parse_single_cycle`'s line loop: the
session counter never drops below its start, emitted entries sit between
the start and the counter (strictly below it when no session is open),
and the emitted session numbers are nondecreasing. -/
def LineInv (s0 : ℤ) (acc : List PlannedEntry × CycleState) : Prop :=
  s0 ≤ acc.2.sessionNum ∧
  (acc.2.inSession = false → ∀ e ∈ acc.1, e.session < acc.2.sessionNum) ∧
  (∀ e ∈ acc.1, s0 ≤ e.session ∧ e.session ≤ acc.2.sessionNum) ∧
  (acc.1.map PlannedEntry.session).Chain' (· ≤ ·)

lemma lineStep_inv (sq bn dl : ℚ) (cats : List (String × String))
    (s0 : ℤ) (acc : List PlannedEntry × CycleState) (line : List Char)
    (h : LineInv s0 acc) : LineInv s0 (lineStep sq bn dl cats acc line) := by
  obtain ⟨h1, h2, h3, h4⟩ := h
  simp only [lineStep, LineInv]
  split
  · -- blank/comment branch
    split
    · -- blank while in session: counter bumps, session closes
      dsimp only
      exact ⟨by omega, fun _ e he => by have := (h3 e he).2; omega,
        fun e he => ⟨(h3 e he).1, by have := (h3 e he).2; omega⟩, h4⟩
    · exact ⟨h1, h2, h3, h4⟩
  · split
    · -- exercise line
      split
      · -- name match failed: only in_session flips
        dsimp only
        refine ⟨h1, ?_, h3, h4⟩
        simp
      · -- entries appended at the current counter
        dsimp only
        refine ⟨h1, by simp, ?_, ?_⟩
        · intro e he
          rcases List.mem_append.mp he with he | he
          · exact h3 e he
          · rw [entriesForLine_session _ _ _ _ _ e he]
            exact ⟨h1, le_refl _⟩
        · rw [List.map_append, List.chain'_append]
          refine ⟨h4, ?_, ?_⟩
          · apply List.Pairwise.chain'
            apply List.pairwise_of_forall_mem_list
            intro a ha b hb
            simp only [List.mem_map] at ha hb
            obtain ⟨ea, hea, rfl⟩ := ha
            obtain ⟨eb, heb, rfl⟩ := hb
            rw [entriesForLine_session _ _ _ _ _ ea hea,
              entriesForLine_session _ _ _ _ _ eb heb]
          · intro x hx y hy
            have hxmem : x ∈ acc.1.map PlannedEntry.session :=
              List.mem_of_getLast?_eq_some hx
            have hymem := List.mem_of_mem_head? hy
            simp only [List.mem_map] at hxmem hymem
            obtain ⟨ex, hex, rfl⟩ := hxmem
            obtain ⟨ey, hey, rfl⟩ := hymem
            rw [entriesForLine_session _ _ _ _ _ ey hey]
            exact (h3 ex hex).2
    · exact ⟨h1, h2, h3, h4⟩

lemma foldl_lineStep_inv (sq bn dl : ℚ) (cats : List (String × String))
    (s0 : ℤ) (lines : List (List Char)) (acc : List PlannedEntry × CycleState)
    (h : LineInv s0 acc) :
    LineInv s0 (lines.foldl (lineStep sq bn dl cats) acc) := by
  induction lines generalizing acc with
  | nil => exact h
  | cons l ls ih => exact ih _ (lineStep_inv sq bn dl cats s0 acc l h)

/-- One cycle of the parser: the counter never decreases, every emitted
entry's session lies in `[s0, final counter)`, and emitted session
numbers are nondecreasing. -/
lemma parseSingleCycle_spec (lines : List (List Char)) (sq bn dl : ℚ)
    (cats : List (String × String)) (s0 : ℤ) :
    s0 ≤ (parseSingleCycle lines sq bn dl cats s0).2 ∧
    (∀ e ∈ (parseSingleCycle lines sq bn dl cats s0).1,
      s0 ≤ e.session ∧ e.session < (parseSingleCycle lines sq bn dl cats s0).2) ∧
    ((parseSingleCycle lines sq bn dl cats s0).1.map
      PlannedEntry.session).Chain' (· ≤ ·) := by
  have base : LineInv s0 ([], ⟨s0, false⟩) := by
    refine ⟨le_refl _, ?_, ?_, ?_⟩ <;> simp
  have h := foldl_lineStep_inv sq bn dl cats s0 lines _ base
  obtain ⟨h1, h2, h3, h4⟩ := h
  simp only [parseSingleCycle]
  refine ⟨?_, ?_, h4⟩
  · split <;> omega
  · intro e he
    refine ⟨(h3 e he).1, ?_⟩
    split
    · have := (h3 e he).2; omega
    · rename_i hns
      exact h2 (by simpa using hns) e he

/-- Invariant of `parse`'s cycle fold: every emitted session number is
below the running counter, and the session sequence is nondecreasing. -/
def CycleFoldInv (acc : List PlannedEntry × ℤ) : Prop :=
  (∀ e ∈ acc.1, e.session < acc.2) ∧
  (acc.1.map PlannedEntry.session).Chain' (· ≤ ·)

lemma cycleFold_inv (lines : List (List Char)) (sq bn dl : ℚ)
    (cats : List (String × String)) (k : ℕ) :
    CycleFoldInv ((List.range k).foldl
      (fun acc _ =>
        let r := parseSingleCycle lines sq bn dl cats acc.2
        (acc.1 ++ r.1, r.2)) ([], (1 : ℤ))) := by
  induction k with
  | zero => refine ⟨?_, ?_⟩ <;> simp
  | succ n ih =>
      rw [List.range_succ, List.foldl_append]
      obtain ⟨ih1, ih2⟩ := ih
      set acc := (List.range n).foldl
        (fun acc _ =>
          let r := parseSingleCycle lines sq bn dl cats acc.2
          (acc.1 ++ r.1, r.2)) ([], (1 : ℤ)) with hacc
      obtain ⟨hs, hmem, hchain⟩ := parseSingleCycle_spec lines sq bn dl cats acc.2
      dsimp only [List.foldl]
      constructor
      · intro e he
        rcases List.mem_append.mp he with he | he
        · exact lt_of_lt_of_le (ih1 e he) hs
        · exact (hmem e he).2
      · rw [List.map_append, List.chain'_append]
        refine ⟨ih2, hchain, ?_⟩
        intro x hx y hy
        have hxmem := List.mem_of_getLast?_eq_some hx
        have hymem := List.mem_of_mem_head? hy
        simp only [List.mem_map] at hxmem hymem
        obtain ⟨ex, hex, rfl⟩ := hxmem
        obtain ⟨ey, hey, rfl⟩ := hymem
        exact le_of_lt (lt_of_lt_of_le (ih1 ex hex) (hmem ey hey).1)

set_option linter.unusedVariables false in
/-- C6 (amended): session numbers are not reset between cycles — the full
output's session numbers are nondecreasing, and every entry of the added
cycle has a session number strictly greater than every entry of the
previous cycles.  (The "exactly one greater" of the original claim fails
when a cycle opens a session that emits no entries.) -/
theorem liftoscript_sessions_not_reset
    (lookup : String → Option String) (script : List Char) (sq bn dl : ℚ)
    (n : ℕ) (ws ws' : List PlannedEntry)
    (h : liftoscript_parse lookup script sq bn dl n = .ok ws)
    (h' : liftoscript_parse lookup script sq bn dl (n + 1) = .ok ws') :
    (ws'.map PlannedEntry.session).Chain' (· ≤ ·) ∧
    ∃ rest, ws' = ws ++ rest ∧
      ∀ p ∈ ws, ∀ q ∈ rest, p.session < q.session := by
  simp only [liftoscript_parse] at h h'
  cases hv : validateExercises lookup (pySplitOn '\n' (pyStrip script)) with
  | error e => rw [hv] at h; cases h
  | ok cats =>
      rw [hv] at h h'
      set lines := pySplitOn '\n' (pyStrip script) with hlines
      set F := fun (acc : List PlannedEntry × ℤ) (_ : ℕ) =>
        let r := parseSingleCycle lines sq bn dl cats acc.2
        (acc.1 ++ r.1, r.2) with hF
      have hws : ws = ((List.range n).foldl F ([], (1 : ℤ))).1 :=
        by injection h with hh; exact hh.symm
      have hws' : ws' = ((List.range (n + 1)).foldl F ([], (1 : ℤ))).1 :=
        by injection h' with hh; exact hh.symm
      obtain ⟨inv1, inv2⟩ := cycleFold_inv lines sq bn dl cats n
      obtain ⟨inv1', inv2'⟩ := cycleFold_inv lines sq bn dl cats (n + 1)
      set acc := (List.range n).foldl F ([], (1 : ℤ)) with hacc
      obtain ⟨hs, hmem, hchain⟩ :=
        parseSingleCycle_spec lines sq bn dl cats acc.2
      have hsplit : (List.range (n + 1)).foldl F ([], (1 : ℤ)) = F acc n := by
        rw [List.range_succ, List.foldl_append]
        simp
      constructor
      · rw [hws']
        exact inv2'
      · refine ⟨(parseSingleCycle lines sq bn dl cats acc.2).1, ?_, ?_⟩
        · rw [hws', hws, hsplit]
        · intro p hp q hq
          exact lt_of_lt_of_le (inv1 p (hws ▸ hp)) (hmem q hq).1

/-- A two-cycle script whose second "session" (the `Notes / hi` line) opens
but emits no entries, so the end-of-cycle increment skips a number. -/
def gapScript : List Char := "A / 1x1\n\nNotes / hi".data

/-- The single entry each cycle of `gapScript` emits. -/
def gapEntry (s : ℤ) : PlannedEntry :=
  { session := s, exercise := "A", category := "Legs", weight := none,
    weight_unit := "lbs", reps := some 1, comment := none }

set_option maxHeartbeats 2000000 in
/-- C6 counterexample -/
theorem liftoscript_session_gap_counterexample :
    liftoscript_parse demoLookup gapScript 225 185 275 1 = .ok [gapEntry 1] ∧
    liftoscript_parse demoLookup gapScript 225 185 275 2 =
      .ok [gapEntry 1, gapEntry 3] ∧
    (gapEntry 3).session ≠ (gapEntry 1).session + 1 := by
  refine ⟨?_, ?_, by decide⟩ <;>
  · simp [liftoscript_parse, validateExercises, collectExerciseNames,
      parseSingleCycle, lineStep, pyStrip, pySplitOn, pyStartsWith, nameMatch,
      parse_set_spec, setDefOfPart, setSearch, setMatchCore, weightSearch,
      weightMatchCore, rpeSearch, rpeMatchCore, restSearch, restMatchCore,
      unitMatch, globalsStep, globalsWeightStep, initGlobals,
      resolveWeightMatch, getMaxForExercise, containsSub, entriesForLine,
      repsValueOf, buildComment, rpeTruthy, equipTruthy, strLookup,
      natOfDigits, pyIntOfString, demoLookup, List.range_succ,
      convert_kg_to_lbs, gapScript, gapEntry]

set_option maxHeartbeats 2000000 in
theorem liftoscript_sessions_not_reset_witness :
    (([gapEntry 1, gapEntry 3].map PlannedEntry.session).Chain' (· ≤ ·)) ∧
    ∃ rest, [gapEntry 1, gapEntry 3] = [gapEntry 1] ++ rest ∧
      ∀ p ∈ [gapEntry 1], ∀ q ∈ rest, p.session < q.session :=
  liftoscript_sessions_not_reset demoLookup gapScript 225 185 275 1 _ _
    (by simp [liftoscript_parse, validateExercises, collectExerciseNames,
      parseSingleCycle, lineStep, pyStrip, pySplitOn, pyStartsWith, nameMatch,
      parse_set_spec, setDefOfPart, setSearch, setMatchCore, weightSearch,
      weightMatchCore, rpeSearch, rpeMatchCore, restSearch, restMatchCore,
      unitMatch, globalsStep, globalsWeightStep, initGlobals,
      resolveWeightMatch, getMaxForExercise, containsSub, entriesForLine,
      repsValueOf, buildComment, rpeTruthy, equipTruthy, strLookup,
      natOfDigits, pyIntOfString, demoLookup, List.range_succ,
      convert_kg_to_lbs, gapScript, gapEntry])
    (by simp [liftoscript_parse, validateExercises, collectExerciseNames,
      parseSingleCycle, lineStep, pyStrip, pySplitOn, pyStartsWith, nameMatch,
      parse_set_spec, setDefOfPart, setSearch, setMatchCore, weightSearch,
      weightMatchCore, rpeSearch, rpeMatchCore, restSearch, restMatchCore,
      unitMatch, globalsStep, globalsWeightStep, initGlobals,
      resolveWeightMatch, getMaxForExercise, containsSub, entriesForLine,
      repsValueOf, buildComment, rpeTruthy, equipTruthy, strLookup,
      natOfDigits, pyIntOfString, demoLookup, List.range_succ,
      convert_kg_to_lbs, gapScript, gapEntry])

/-! ## The strict grammar parser (modelled from the spec)

The spec (§4.1–§4.2, §7) canonicalizes a strict parser variant with
`// <Exercise> 1RM: <N>(lb|kg)` / `// <Exercise> SW: <N>(lb|kg)` header
comments, required-comment validation with a batched
`MissingRequiredComment` error, `round_to_5` weight rounding and
`progress: lp(...)` linear progression.  That variant is exercised by
`tests/test_services_liftoscript.py` and documented by the
`/liftoscript/generate` endpoint, but its implementation is not among the
source files; the shipped `liftoscript_service.py` is a divergent
variant.  The definitions below are therefore modelled from the spec's
words, at the granularity of already-lexed script lines. -/

/-- Modelled from the spec: a weight unit suffix `lb` or `kg`. -/
inductive SpecUnit where
  | lb
  | kg
  deriving DecidableEq, Repr

/-- Modelled from the spec: `kg` values are converted to pounds with the
factor `2.20462`. -/
def specUnitToLb (v : ℚ) : SpecUnit → ℚ
  | .lb => v
  | .kg => v * kgToLbFactor

/-- Modelled from the spec: a weight token — absolute, percentage-of-max,
or linear progression `progress: lp(<N>(lb|kg))`. -/
inductive SpecWeightTok where
  | abs (v : ℚ) (u : SpecUnit)
  | pct (v : ℚ)
  | lp (inc : ℚ) (u : SpecUnit)
  deriving DecidableEq, Repr

/-- Modelled from the spec: a set-spec `<N>x<M>[+]` with an optional
weight token. -/
structure SpecSetSpec where
  sets : ℕ
  reps : ℕ
  amrap : Bool
  tok : Option SpecWeightTok
  deriving DecidableEq, Repr

/-- Modelled from the spec: one already-lexed line of the strict grammar —
a `1RM`/`SW` header comment, a `## label` session header (label
discarded), an exercise line, or a skipped line. -/
inductive SpecLine where
  | oneRmHeader (ex : String) (v : ℚ) (u : SpecUnit)
  | swHeader (ex : String) (v : ℚ) (u : SpecUnit)
  | sessionHeader
  | exerciseLine (name : String) (specs : List SpecSetSpec)
  | blank
  deriving DecidableEq, Repr

/-- Modelled from the spec: `round_to_5` — round to the nearest multiple
of 5, ties to the even multiple (banker's rounding). -/
def roundTo5 (q : ℚ) : ℤ := pyRound (q / 5) * 5

/-- Generic first-match lookup in a name-keyed association list. -/
def specLookup {α : Type} (l : List (String × α)) (k : String) : Option α :=
  (l.find? (fun p => p.1 = k)).map Prod.snd

/-- Modelled from the spec: the `OneRepMax` and `StartingWeight` maps,
populated from the header comments before body parsing (values
unit-normalized to pounds). -/
def headerMaps (script : List SpecLine) :
    List (String × ℚ) × List (String × ℚ) :=
  script.foldl
    (fun m l =>
      match l with
      | .oneRmHeader ex v u => (m.1 ++ [(ex, specUnitToLb v u)], m.2)
      | .swHeader ex v u => (m.1, m.2 ++ [(ex, specUnitToLb v u)])
      | _ => m)
    ([], [])

/-- Whether `name` appears on an exercise line with a `%` token. -/
def usesPct (name : String) (script : List SpecLine) : Bool :=
  script.any (fun l =>
    match l with
    | .exerciseLine n specs =>
        n = name && specs.any (fun s =>
          match s.tok with
          | some (.pct _) => true
          | _ => false)
    | _ => false)

/-- Whether `name` appears on an exercise line with a `progress: lp(...)`
token. -/
def usesLp (name : String) (script : List SpecLine) : Bool :=
  script.any (fun l =>
    match l with
    | .exerciseLine n specs =>
        n = name && specs.any (fun s =>
          match s.tok with
          | some (.lp _ _) => true
          | _ => false)
    | _ => false)

/-- The exercise names appearing in the script body, in first-seen
order. -/
def exerciseNamesIn (script : List SpecLine) : List String :=
  script.foldl
    (fun acc l =>
      match l with
      | .exerciseLine n _ => if n ∈ acc then acc else acc ++ [n]
      | _ => acc)
    []

/-- Modelled from the spec: the exercises using `%` without a `OneRepMax`
header. -/
def pctOffenders (script : List SpecLine) : List String :=
  (exerciseNamesIn script).filter
    (fun n => usesPct n script && (specLookup (headerMaps script).1 n).isNone)

/-- Modelled from the spec: the exercises using `progress: lp(...)`
without a `StartingWeight` header. -/
def lpOffenders (script : List SpecLine) : List String :=
  (exerciseNamesIn script).filter
    (fun n => usesLp n script && (specLookup (headerMaps script).2 n).isNone)

/-- Modelled from the spec: `ParseError::MissingRequiredComment`, carrying
every offending exercise of either kind (batched, not fail-fast). -/
inductive SpecParseError where
  | missingRequiredComment (pctNames lpNames : List String)
  deriving DecidableEq, Repr

/-- Modelled from the spec: one planned entry of the strict parser. -/
structure SpecEntry where
  session : ℕ
  exercise : String
  weight : Option ℤ
  reps : ℕ
  amrap : Bool
  deriving DecidableEq, Repr

/-- Modelled from the spec: weight-token resolution at a 0-based cycle
index — absolute values unit-converted and rounded to 5; `pct` against the
`OneRepMax` map; `lp` as `round_to_5(starting_weight + increment *
cycle_index)`, recomputed fresh each cycle. -/
def specResolveTok (oneRm sw : List (String × ℚ)) (name : String)
    (cycleIdx : ℕ) : Option SpecWeightTok → Option ℤ
  | none => none
  | some (.abs v u) => some (roundTo5 (specUnitToLb v u))
  | some (.pct p) => (specLookup oneRm name).map (fun m => roundTo5 (m * p / 100))
  | some (.lp inc u) =>
      (specLookup sw name).map
        (fun s => roundTo5 (s + specUnitToLb inc u * cycleIdx))

/-- Modelled from the spec: one walk of the script body — `## label`
opens a new session, each set-spec `NxM` emits `N` entries at the current
session with the resolved weight.  Returns the entries and the session
counter (shared across cycles: sessions are not reset). -/
def specCycle (oneRm sw : List (String × ℚ)) (script : List SpecLine)
    (cycleIdx : ℕ) (sess : ℕ) : List SpecEntry × ℕ :=
  script.foldl
    (fun acc l =>
      match l with
      | .sessionHeader => (acc.1, acc.2 + 1)
      | .exerciseLine name specs =>
          (acc.1 ++ specs.flatMap (fun sp =>
            List.replicate sp.sets
              { session := acc.2
                exercise := name
                weight := specResolveTok oneRm sw name cycleIdx sp.tok
                reps := sp.reps
                amrap := sp.amrap }), acc.2)
      | _ => acc)
    ([], sess)

/-- Modelled from the spec: `parse` — validate the required header
comments over the whole script first (raising the batched error before
any entry is produced), then walk the script once per cycle. -/
def specParse (script : List SpecLine) (numCycles : ℕ) :
    Except SpecParseError (List SpecEntry) :=
  let po := pctOffenders script
  let lo := lpOffenders script
  if po = [] ∧ lo = [] then
    let m := headerMaps script
    .ok ((List.range numCycles).foldl
      (fun acc k =>
        let r := specCycle m.1 m.2 script k acc.2
        (acc.1 ++ r.1, r.2))
      ([], 0)).1
  else .error (.missingRequiredComment po lo)

lemma mem_exerciseNamesIn (script : List SpecLine) (name : String) :
    name ∈ exerciseNamesIn script ↔
      ∃ specs, SpecLine.exerciseLine name specs ∈ script := by
  have key : ∀ (ls : List SpecLine) (acc : List String),
      name ∈ ls.foldl
        (fun acc l =>
          match l with
          | .exerciseLine n _ => if n ∈ acc then acc else acc ++ [n]
          | _ => acc) acc ↔
      name ∈ acc ∨ ∃ specs, SpecLine.exerciseLine name specs ∈ ls := by
    intro ls
    induction ls with
    | nil => simp
    | cons l rest ih =>
        intro acc
        cases l with
        | exerciseLine n specs =>
            by_cases hn : n ∈ acc
            · simp only [List.foldl_cons, if_pos hn, ih]
              constructor
              · rintro (h | h)
                · exact Or.inl h
                · exact Or.inr (by
                    obtain ⟨sp, hsp⟩ := h
                    exact ⟨sp, List.mem_cons_of_mem _ hsp⟩)
              · rintro (h | ⟨sp, hsp⟩)
                · exact Or.inl h
                · rcases List.mem_cons.mp hsp with heq | hmem
                  · injection heq with h1 h2
                    subst h1
                    exact Or.inl hn
                  · exact Or.inr ⟨sp, hmem⟩
            · simp only [List.foldl_cons, if_neg hn, ih]
              constructor
              · rintro (h | h)
                · rcases List.mem_append.mp h with h | h
                  · exact Or.inl h
                  · simp only [List.mem_singleton] at h
                    subst h
                    exact Or.inr ⟨specs, List.mem_cons_self _ _⟩
                · obtain ⟨sp, hsp⟩ := h
                  exact Or.inr ⟨sp, List.mem_cons_of_mem _ hsp⟩
              · rintro (h | ⟨sp, hsp⟩)
                · exact Or.inl (List.mem_append_left _ h)
                · rcases List.mem_cons.mp hsp with heq | hmem
                  · injection heq with h1 h2
                    subst h1
                    exact Or.inl (List.mem_append_right _ (by simp))
                  · exact Or.inr ⟨sp, hmem⟩
        | oneRmHeader ex v u => simpa using ih _
        | swHeader ex v u => simpa using ih _
        | sessionHeader => simpa using ih _
        | blank => simpa using ih _
  simpa using key script []

lemma mem_pctOffenders (script : List SpecLine) (name : String) :
    name ∈ pctOffenders script ↔
      usesPct name script = true ∧
        (specLookup (headerMaps script).1 name).isNone = true := by
  unfold pctOffenders
  rw [List.mem_filter]
  constructor
  · rintro ⟨-, h⟩
    exact ⟨(Bool.and_eq_true _ _ ▸ h).1, (Bool.and_eq_true _ _ ▸ h).2⟩
  · rintro ⟨h1, h2⟩
    refine ⟨?_, by rw [h1, h2]; rfl⟩
    rw [mem_exerciseNamesIn]
    unfold usesPct at h1
    rw [List.any_eq_true] at h1
    obtain ⟨l, hl, hmatch⟩ := h1
    cases l with
    | exerciseLine n specs =>
        have hn : n = name := by
          by_contra hne
          simp [hne] at hmatch
        exact ⟨specs, hn ▸ hl⟩
    | oneRmHeader ex v u => simp at hmatch
    | swHeader ex v u => simp at hmatch
    | sessionHeader => simp at hmatch
    | blank => simp at hmatch

set_option linter.unusedVariables false in
/-- C3 (spec-modelled): whenever some exercise uses a `%` token without a
`OneRepMax` header, `parse` returns the `MissingRequiredComment` error —
producing no entries for any cycle count — and the error carries exactly
the set of offending exercises (batched), not just the first. -/
theorem spec_missing_onerm_is_batched_error
    (script : List SpecLine) (n : ℕ)
    (h : ∃ name, usesPct name script = true ∧
      specLookup (headerMaps script).1 name = none) :
    ∃ po lo,
      specParse script n = .error (.missingRequiredComment po lo) ∧
      (∀ name, name ∈ po ↔
        (usesPct name script = true ∧
          specLookup (headerMaps script).1 name = none)) ∧
      ∀ entries, specParse script n ≠ .ok entries := by
  obtain ⟨name, h1, h2⟩ := h
  have hmem : name ∈ pctOffenders script :=
    (mem_pctOffenders script name).mpr ⟨h1, by rw [h2]; rfl⟩
  have hne : ¬ (pctOffenders script = [] ∧ lpOffenders script = []) := by
    rintro ⟨he, -⟩
    rw [he] at hmem
    cases hmem
  have herr : specParse script n =
      .error (.missingRequiredComment (pctOffenders script) (lpOffenders script)) := by
    unfold specParse
    rw [if_neg hne]
  refine ⟨pctOffenders script, lpOffenders script, herr, ?_, ?_⟩
  · intro nm
    rw [mem_pctOffenders]
    constructor
    · rintro ⟨hu, hn⟩
      exact ⟨hu, Option.isNone_iff_eq_none.mp hn⟩
    · rintro ⟨hu, hn⟩
      exact ⟨hu, by rw [hn]; rfl⟩
  · intro entries hcon
    rw [herr] at hcon
    cases hcon

/-- The offending concrete script of the C3 witness: two exercises use a
`%` token and neither has a `OneRepMax` header. -/
def missingScript : List SpecLine :=
  [.oneRmHeader "C" 100 .lb, .sessionHeader,
   .exerciseLine "A" [⟨1, 5, false, some (.pct 75)⟩],
   .exerciseLine "B" [⟨1, 5, false, some (.pct 80)⟩]]

theorem spec_missing_onerm_is_batched_error_witness :
    ∃ po lo,
      specParse missingScript 1 = .error (.missingRequiredComment po lo) ∧
      (∀ name, name ∈ po ↔
        (usesPct name missingScript = true ∧
          specLookup (headerMaps missingScript).1 name = none)) ∧
      ∀ entries, specParse missingScript 1 ≠ .ok entries :=
  spec_missing_onerm_is_batched_error missingScript 1
    ⟨"A", by decide, by decide⟩

/-- A one-exercise strict-grammar script: a `StartingWeight` header and a
single-session exercise line with a `progress: lp(...)` token (both in
pounds). -/
def lpDemoScript (name : String) (sw inc : ℚ) : List SpecLine :=
  [.swHeader name sw .lb, .sessionHeader,
   .exerciseLine name [⟨1, 5, false, some (.lp inc .lb)⟩]]

lemma lp_fold (name : String) (sw inc : ℚ) (j : ℕ) :
    (List.range j).foldl
      (fun (acc : List SpecEntry × ℕ) k =>
        let r := specCycle (headerMaps (lpDemoScript name sw inc)).1
          (headerMaps (lpDemoScript name sw inc)).2 (lpDemoScript name sw inc)
          k acc.2
        (acc.1 ++ r.1, r.2))
      ([], 0) =
    ((List.range j).map (fun k =>
      { session := k + 1, exercise := name,
        weight := some (roundTo5 (sw + inc * k)), reps := 5,
        amrap := false }), j) := by
  induction j with
  | zero => simp
  | succ m ih =>
      rw [List.range_succ, List.foldl_append, ih]
      simp [specCycle, lpDemoScript, headerMaps, specResolveTok, specLookup,
        specUnitToLb, List.range_succ]

set_option linter.unusedVariables false in
/-- C5 (spec-modelled): for an exercise with a `StartingWeight` header and
a `progress: lp(increment)` token, the weight resolved in 0-based cycle
`k` is `round_to_5(starting_weight + increment * k)`, recomputed fresh
each cycle from the starting weight. -/
theorem spec_lp_linear_progression
    (name : String) (sw inc : ℚ) (n k : ℕ) (hk : k < n) :
    ∃ entries,
      specParse (lpDemoScript name sw inc) n = .ok entries ∧
      entries.length = n ∧
      entries.get? k = some
        { session := k + 1, exercise := name,
          weight := some (roundTo5 (sw + inc * k)), reps := 5,
          amrap := false } := by
  have hval : pctOffenders (lpDemoScript name sw inc) = [] ∧
      lpOffenders (lpDemoScript name sw inc) = [] := by
    constructor <;>
      simp [pctOffenders, lpOffenders, exerciseNamesIn, lpDemoScript,
        usesPct, usesLp, specLookup, headerMaps, List.filter]
  refine ⟨(List.range n).map (fun k =>
      { session := k + 1, exercise := name,
        weight := some (roundTo5 (sw + inc * k)), reps := 5,
        amrap := false }), ?_, ?_, ?_⟩
  · simp only [specParse]
    rw [if_pos hval, lp_fold]
  · simp
  · simp only [List.get?_eq_getElem?, List.getElem?_map, List.getElem?_range hk,
      Option.map_some']

theorem spec_lp_linear_progression_witness :
    (∃ entries,
      specParse (lpDemoScript "Squat" 100 10) 3 = .ok entries ∧
      entries.length = 3 ∧
      entries.get? 0 = some
        { session := 1, exercise := "Squat", weight := some 100, reps := 5,
          amrap := false }) ∧
    (∃ entries,
      specParse (lpDemoScript "Squat" 100 10) 3 = .ok entries ∧
      entries.length = 3 ∧
      entries.get? 1 = some
        { session := 2, exercise := "Squat", weight := some 110, reps := 5,
          amrap := false }) ∧
    (∃ entries,
      specParse (lpDemoScript "Squat" 100 10) 3 = .ok entries ∧
      entries.length = 3 ∧
      entries.get? 2 = some
        { session := 3, exercise := "Squat", weight := some 120, reps := 5,
          amrap := false }) := by
  have e0 : roundTo5 ((100 : ℚ) + 10 * ((0 : ℕ) : ℚ)) = 100 := by
    norm_num [roundTo5, pyRound]
  have e1 : roundTo5 ((100 : ℚ) + 10 * ((1 : ℕ) : ℚ)) = 110 := by
    norm_num [roundTo5, pyRound]
  have e2 : roundTo5 ((100 : ℚ) + 10 * ((2 : ℕ) : ℚ)) = 120 := by
    norm_num [roundTo5, pyRound]
  refine ⟨?_, ?_, ?_⟩
  · have h := spec_lp_linear_progression "Squat" 100 10 3 0 (by norm_num)
    rw [e0] at h
    simpa using h
  · have h := spec_lp_linear_progression "Squat" 100 10 3 1 (by norm_num)
    rw [e1] at h
    simpa using h
  · have h := spec_lp_linear_progression "Squat" 100 10 3 2 (by norm_num)
    rw [e2] at h
    simpa using h

/-! ### Projector lemmas -/

lemma bestUp_fold_some (s pd : ℤ) (rows : List URow) :
    ∀ (init : Option UPoint × ℚ) (p : UPoint),
      (rows.foldl (bestUpStep s pd) init).1 = some p →
      init.1 = some p ∨
        ∃ w ∈ rows, weightTruthy w.weight = true ∧ repsTruthy w.reps = true ∧
          p = mkUPoint s pd w := by
  induction rows with
  | nil => intro init p h; exact Or.inl h
  | cons u rest ih =>
      intro init p h
      rw [List.foldl_cons] at h
      rcases ih _ p h with hin | ⟨w, hw, h1, h2, h3⟩
      · simp only [bestUpStep] at hin
        split at hin
        · split at hin
          · injection hin with hh
            rename_i hguard _
            exact Or.inr ⟨u, List.mem_cons_self _ _,
              (Bool.and_eq_true _ _ ▸ hguard).1,
              (Bool.and_eq_true _ _ ▸ hguard).2, hh.symm⟩
          · exact Or.inl hin
        · exact Or.inl hin
      · exact Or.inr ⟨w, List.mem_cons_of_mem _ hw, h1, h2, h3⟩

lemma mem_upcoming_fold (U : List URow) (ex : String)
    (dateMap : List (ℤ × ℤ)) (keys : List ℤ) :
    ∀ (acc : List UPoint) (p : UPoint),
      p ∈ keys.foldl (upcomingStep U ex dateMap) acc →
      p ∈ acc ∨
        ∃ s ∈ keys, p.session = s ∧
          p.projected_date = (assocFind dateMap s).getD 0 ∧
          ∃ w ∈ U, w.session = s ∧ w.exercise = ex ∧
            weightTruthy w.weight = true ∧ repsTruthy w.reps = true ∧
            p = mkUPoint s ((assocFind dateMap s).getD 0) w := by
  induction keys with
  | nil => intro acc p h; exact Or.inl h
  | cons s rest ih =>
      intro acc p h
      rw [List.foldl_cons] at h
      rcases ih _ p h with hin | ⟨s', hs', rest'⟩
      · simp only [upcomingStep] at hin
        split at hin
        · exact Or.inl hin
        · rename_i hne
          split at hin
          · exact Or.inl hin
          · rename_i q hq
            rcases List.mem_append.mp hin with hin | hin
            · exact Or.inl hin
            · simp only [List.mem_singleton] at hin
              subst hin
              rcases bestUp_fold_some s ((assocFind dateMap s).getD 0) _ _ _ hq
                with hnone | ⟨w, hw, h1, h2, h3⟩
              · cases hnone
              · have hwU : w ∈ U := by
                  have := List.mem_filter.mp (List.mem_filter.mp hw).1
                  exact this.1
                have hsess : w.session = s := by
                  have := List.mem_filter.mp (List.mem_filter.mp hw).1
                  exact by simpa using this.2
                have hex : w.exercise = ex := by
                  have := List.mem_filter.mp hw
                  have h2' := this.2
                  simp only [Bool.and_eq_true, decide_eq_true_eq] at h2'
                  exact h2'.1
                refine Or.inr ⟨s, List.mem_cons_self _ _, ?_, ?_,
                  w, hwU, hsess, hex, h1, h2, h3⟩
                · rw [h3]; rfl
                · rw [h3]; rfl
      · exact Or.inr ⟨s', List.mem_cons_of_mem _ hs', rest'⟩

/-- Every point of the upcoming series carries the projected date the
shared session→date map assigns to its session, and originates from an
upcoming row of the target exercise with truthy weight and reps. -/
lemma mem_upcomingSeries_origin (U : List URow) (ex : String)
    (hist : List HistPoint) (today : ℤ) (p : UPoint)
    (hp : p ∈ upcomingSeries U ex hist today) :
    p.session ∈ sortedSessionKeys U ∧
    p.projected_date = (assocFind (sessionDateMap (sortedSessionKeys U)
        (startDate hist today)) p.session).getD 0 ∧
    ∃ w ∈ U, w.session = p.session ∧ w.exercise = ex ∧
      weightTruthy w.weight = true ∧ repsTruthy w.reps = true ∧
      p = mkUPoint p.session p.projected_date w := by
  unfold upcomingSeries at hp
  rcases mem_upcoming_fold U ex _ _ _ _ hp with h | ⟨s, hs, h1, h2, w, hw⟩
  · cases h
  · subst h1
    exact ⟨hs, h2, w, hw.1, hw.2.1, hw.2.2.1, hw.2.2.2.1, hw.2.2.2.2.1,
      by rw [← h2] at hw; exact hw.2.2.2.2.2⟩

set_option linter.unusedVariables false in
/-- C2 (amended): the session→date map is built from every session across
all upcoming entries, so two exercises projected against the same upcoming
set assign the same date to a shared session number **provided their
projection start dates coincide** (same last historical date, or no
history for both).  The start date itself is derived from the target
exercise's own history, so the map is not independent of the exercise in
general. -/
theorem session_dates_agree_of_equal_start
    (table : List HRow) (U : List URow) (a b : String) (today : ℤ)
    (hstart : startDate (histSeries (getByExercise table a)) today =
      startDate (histSeries (getByExercise table b)) today)
    (p q : UPoint)
    (hp : p ∈ (get_progression_data a (getByExercise table a) U today).upcoming)
    (hq : q ∈ (get_progression_data b (getByExercise table b) U today).upcoming)
    (hs : p.session = q.session) :
    p.projected_date = q.projected_date := by
  simp only [get_progression_data, if_true] at hp hq
  have h1 := (mem_upcomingSeries_origin U a _ today p hp).2.1
  have h2 := (mem_upcomingSeries_origin U b _ today q hq).2.1
  rw [h1, h2, hstart, hs]

/-- Historical rows for the C2 counterexample: exercises `A` and `B` with
different last logged dates (day 10 and day 14). -/
def ceHistA : HRow :=
  { date := 10, exercise := "A", weight := some 100, weight_unit := "lbs",
    reps := .rint 5, comment := none }

/-- See `ceHistA`. -/
def ceHistB : HRow :=
  { date := 14, exercise := "B", weight := some 100, weight_unit := "lbs",
    reps := .rint 5, comment := none }

/-- The shared historical table of the C2 counterexample. -/
def ceTable : List HRow := [ceHistA, ceHistB]

/-- Upcoming rows of the C2 counterexample: one shared session holding a
set for each exercise. -/
def ceUpA : URow :=
  { session := 1, exercise := "A", weight := some 100, weight_unit := "lbs",
    reps := .rint 5, comment := none }

/-- See `ceUpA`. -/
def ceUpB : URow :=
  { session := 1, exercise := "B", weight := some 100, weight_unit := "lbs",
    reps := .rint 5, comment := none }

/-- The shared upcoming table of the C2 counterexample. -/
def ceUp : List URow := [ceUpA, ceUpB]

set_option maxHeartbeats 1000000 in
/-- C2 counterexample: projecting `A` and `B` against the same full
upcoming set assigns session 1 the dates 12 and 16 respectively — the
session→date map depends on the exercise being projected, through the
start date derived from that exercise's own history. -/
theorem projected_date_depends_on_exercise :
    (get_progression_data "A" (getByExercise ceTable "A") ceUp 0).upcoming.map
      (fun p => (p.session, p.projected_date)) = [(1, 12)] ∧
    (get_progression_data "B" (getByExercise ceTable "B") ceUp 0).upcoming.map
      (fun p => (p.session, p.projected_date)) = [(1, 16)] ∧
    (12 : ℤ) ≠ 16 := by
  have hest : estOf (some 100) (.rint 5) = 1165 / 10 := by
    simp [estOf, calculate_estimated_1rm, repsToInt, weightToFloat, pyRound1]
    norm_num [pyRound]
  have hba : (decide ("B" = "A")) = false := by rfl
  have hab : (decide ("A" = "B")) = false := by rfl
  refine ⟨?_, ?_, by norm_num⟩ <;>
  · norm_num [get_progression_data, histSeries, histDict, histStep, hba, hab,
      upcomingSeries, upcomingStep, bestUpStep, mkUPoint, toHistPoint,
      sortedSessionKeys, firstSeenKeys, sessionDateMap, startDate, assocFind,
      assocReplace, getByExercise, weightTruthy, repsTruthy, hest,
      List.insertionSort, List.orderedInsert, List.find?, List.filter,
      ceTable, ceHistA, ceHistB, ceUp, ceUpA, ceUpB]

/-- A `B` history row with the same last date as `A`'s, for the C2
witness. -/
def ceHistBeq : HRow :=
  { date := 10, exercise := "B", weight := some 100, weight_unit := "lbs",
    reps := .rint 5, comment := none }

/-- Historical table in which both exercises share the last date. -/
def ceTableEq : List HRow := [ceHistA, ceHistBeq]

set_option maxHeartbeats 1000000 in
theorem session_dates_agree_of_equal_start_witness :
    (mkUPoint 1 12 ceUpA).projected_date = (mkUPoint 1 12 ceUpB).projected_date := by
  have hest : estOf (some 100) (.rint 5) = 1165 / 10 := by
    simp [estOf, calculate_estimated_1rm, repsToInt, weightToFloat, pyRound1]
    norm_num [pyRound]
  have hba : (decide ("B" = "A")) = false := by rfl
  have hab : (decide ("A" = "B")) = false := by rfl
  have hA : (get_progression_data "A" (getByExercise ceTableEq "A") ceUp 0).upcoming =
      [mkUPoint 1 12 ceUpA] := by
    norm_num [get_progression_data, histSeries, histDict, histStep, hba, hab,
      upcomingSeries, upcomingStep, bestUpStep, mkUPoint, toHistPoint,
      sortedSessionKeys, firstSeenKeys, sessionDateMap, startDate, assocFind,
      assocReplace, getByExercise, weightTruthy, repsTruthy, hest,
      List.insertionSort, List.orderedInsert, List.find?, List.filter,
      ceTableEq, ceHistA, ceHistBeq, ceUp, ceUpA, ceUpB]
  have hB : (get_progression_data "B" (getByExercise ceTableEq "B") ceUp 0).upcoming =
      [mkUPoint 1 12 ceUpB] := by
    norm_num [get_progression_data, histSeries, histDict, histStep, hba, hab,
      upcomingSeries, upcomingStep, bestUpStep, mkUPoint, toHistPoint,
      sortedSessionKeys, firstSeenKeys, sessionDateMap, startDate, assocFind,
      assocReplace, getByExercise, weightTruthy, repsTruthy, hest,
      List.insertionSort, List.orderedInsert, List.find?, List.filter,
      ceTableEq, ceHistA, ceHistBeq, ceUp, ceUpA, ceUpB]
  have hstart : startDate (histSeries (getByExercise ceTableEq "A")) 0 =
      startDate (histSeries (getByExercise ceTableEq "B")) 0 := by
    norm_num [histSeries, histDict, histStep, hba, hab, toHistPoint,
      startDate, assocFind, getByExercise, weightTruthy, repsTruthy, hest,
      List.insertionSort, List.orderedInsert, List.find?, List.filter,
      ceTableEq, ceHistA, ceHistBeq]
  exact session_dates_agree_of_equal_start ceTableEq ceUp "A" "B" 0 hstart _ _
    (by rw [hA]; exact List.mem_singleton_self _)
    (by rw [hB]; exact List.mem_singleton_self _) rfl

lemma mem_assocReplace {α : Type} (l : List (ℤ × α)) (k : ℤ) (v : α) :
    ∀ dp ∈ assocReplace l k v, dp ∈ l ∨ dp = (k, v) := by
  induction l with
  | nil => intro dp h; cases h
  | cons hd tl ih =>
      intro dp h
      unfold assocReplace at h
      split at h
      · rcases List.mem_cons.mp h with h | h
        · exact Or.inr h
        · exact Or.inl (List.mem_cons_of_mem _ h)
      · rcases List.mem_cons.mp h with h | h
        · exact Or.inl (h ▸ List.mem_cons_self _ _)
        · rcases ih dp h with h | h
          · exact Or.inl (List.mem_cons_of_mem _ h)
          · exact Or.inr h

lemma histDict_origin (rows : List HRow) :
    ∀ dp ∈ histDict rows, ∃ w ∈ rows,
      weightTruthy w.weight = true ∧ repsTruthy w.reps = true ∧
      dp.2 = toHistPoint w (estOf w.weight w.reps) := by
  unfold histDict
  have key : ∀ (l : List HRow) (acc : List (ℤ × HistPoint)),
      (∀ dp ∈ acc, ∃ w ∈ rows, weightTruthy w.weight = true ∧
        repsTruthy w.reps = true ∧ dp.2 = toHistPoint w (estOf w.weight w.reps)) →
      (∀ w ∈ l, w ∈ rows) →
      ∀ dp ∈ l.foldl histStep acc, ∃ w ∈ rows,
        weightTruthy w.weight = true ∧ repsTruthy w.reps = true ∧
        dp.2 = toHistPoint w (estOf w.weight w.reps) := by
    intro l
    induction l with
    | nil => intro acc hacc _ dp h; exact hacc dp h
    | cons u rest ih =>
        intro acc hacc hsub dp h
        rw [List.foldl_cons] at h
        refine ih _ ?_ (fun w hw => hsub w (List.mem_cons_of_mem _ hw)) dp h
        intro dq hdq
        simp only [histStep] at hdq
        split at hdq
        · rename_i hguard
          split at hdq
          · rcases List.mem_append.mp hdq with hdq | hdq
            · exact hacc dq hdq
            · simp only [List.mem_singleton] at hdq
              subst hdq
              exact ⟨u, hsub u (List.mem_cons_self _ _),
                (Bool.and_eq_true _ _ ▸ hguard).1,
                (Bool.and_eq_true _ _ ▸ hguard).2, rfl⟩
          · split at hdq
            · rcases mem_assocReplace _ _ _ dq hdq with hdq | hdq
              · exact hacc dq hdq
              · subst hdq
                exact ⟨u, hsub u (List.mem_cons_self _ _),
                  (Bool.and_eq_true _ _ ▸ hguard).1,
                  (Bool.and_eq_true _ _ ▸ hguard).2, rfl⟩
            · exact hacc dq hdq
        · exact hacc dq hdq
  intro dp h
  exact key _ [] (by intro dp h; cases h)
    (fun w hw => (List.mem_filter.mp hw).1) dp h

lemma mem_histSeries_origin (rows : List HRow) (p : HistPoint)
    (hp : p ∈ histSeries rows) :
    ∃ w ∈ rows, weightTruthy w.weight = true ∧ repsTruthy w.reps = true ∧
      p = toHistPoint w (estOf w.weight w.reps) := by
  unfold histSeries at hp
  rw [List.mem_insertionSort, List.mem_map] at hp
  obtain ⟨dp, hdp, rfl⟩ := hp
  exact histDict_origin rows dp hdp

set_option linter.unusedVariables false in
/-- C10: every point of either output series has a present, non-zero
weight and Python-truthy reps (a non-zero integer or nonempty string),
and originates from an input row with those properties — rows with weight
`0`/`None` or missing/zero reps never contribute a point. -/
theorem progression_points_have_nonzero_weight_and_reps
    (rows : List HRow) (U : List URow) (ex : String) (today : ℤ) :
    (∀ p ∈ (get_progression_data ex rows U today).historical,
      p.weight ≠ 0 ∧ repsTruthy p.reps = true ∧
      ∃ w ∈ rows, weightTruthy w.weight = true ∧ repsTruthy w.reps = true ∧
        p = toHistPoint w (estOf w.weight w.reps)) ∧
    (∀ p ∈ (get_progression_data ex rows U today).upcoming,
      p.weight ≠ 0 ∧ repsTruthy p.reps = true ∧
      ∃ w ∈ U, weightTruthy w.weight = true ∧ repsTruthy w.reps = true ∧
        p = mkUPoint p.session p.projected_date w) := by
  constructor
  · intro p hp
    simp only [get_progression_data] at hp
    obtain ⟨w, hw, h1, h2, h3⟩ := mem_histSeries_origin rows p hp
    refine ⟨?_, ?_, w, hw, h1, h2, h3⟩
    · rw [h3]
      cases hweight : w.weight with
      | none => rw [hweight] at h1; cases h1
      | some q =>
          rw [hweight] at h1
          simp only [weightTruthy, decide_eq_true_eq] at h1
          simpa [toHistPoint, hweight] using h1
    · rw [h3]
      exact h2
  · intro p hp
    simp only [get_progression_data, if_true] at hp
    obtain ⟨-, -, w, hw, -, -, h1, h2, h3⟩ :=
      mem_upcomingSeries_origin U ex _ today p hp
    refine ⟨?_, ?_, w, hw, h1, h2, h3⟩
    · rw [h3]
      cases hweight : w.weight with
      | none => rw [hweight] at h1; cases h1
      | some q =>
          rw [hweight] at h1
          simp only [weightTruthy, decide_eq_true_eq] at h1
          simpa [mkUPoint, hweight] using h1
    · rw [h3]
      exact h2

set_option maxHeartbeats 1000000 in
theorem progression_points_have_nonzero_weight_and_reps_witness :
    (toHistPoint ceHistA (estOf (some 100) (.rint 5))).weight ≠ 0 ∧
    repsTruthy (toHistPoint ceHistA (estOf (some 100) (.rint 5))).reps = true ∧
    ∃ w ∈ [ceHistA], weightTruthy w.weight = true ∧ repsTruthy w.reps = true ∧
      toHistPoint ceHistA (estOf (some 100) (.rint 5)) =
        toHistPoint w (estOf w.weight w.reps) := by
  have hmem : toHistPoint ceHistA (estOf (some 100) (.rint 5)) ∈
      (get_progression_data "A" [ceHistA] ceUp 0).historical := by
    have : (get_progression_data "A" [ceHistA] ceUp 0).historical =
        [toHistPoint ceHistA (estOf (some 100) (.rint 5))] := by
      norm_num [get_progression_data, histSeries, histDict, histStep,
        assocFind, weightTruthy, repsTruthy, getByExercise, ceHistA,
        List.insertionSort, List.orderedInsert, List.filter, List.find?]
    rw [this]
    exact List.mem_singleton_self _
  exact (progression_points_have_nonzero_weight_and_reps [ceHistA] ceUp
    "A" 0).1 _ hmem

/-! ### Best-candidate characterization (C8) -/

/-- The historical candidate rows: those surviving both the
`weight is not None` pre-filter and the `if not weight or not reps` skip. -/
def histCands (rows : List HRow) : List HRow :=
  (rows.filter (fun w => w.weight ≠ none)).filter
    (fun w => weightTruthy w.weight && repsTruthy w.reps)

/-- `exercise_workouts`: a session's upcoming rows of the target exercise
with truthy weight. -/
def exRows (U : List URow) (ex : String) (s : ℤ) : List URow :=
  (U.filter (fun w => w.session = s)).filter
    (fun w => w.exercise = ex && weightTruthy w.weight)

/-- A session's upcoming candidate rows: `exercise_workouts` minus the
rows the inner loop skips. -/
def upCands (U : List URow) (ex : String) (s : ℤ) : List URow :=
  (exRows U ex s).filter (fun w => weightTruthy w.weight && repsTruthy w.reps)

/-- The first row attaining the maximum estimated 1RM (the dict-update
discipline of the historical loop, as a standalone fold). -/
def firstBest : List HRow → Option HRow :=
  List.foldl
    (fun b w =>
      match b with
      | none => some w
      | some v =>
          if estOf w.weight w.reps > estOf v.weight v.reps then some w
          else some v)
    none

lemma assocFind_eq_none_iff {α : Type} (l : List (ℤ × α)) (k : ℤ) :
    assocFind l k = none ↔ k ∉ l.map Prod.fst := by
  unfold assocFind
  rw [Option.map_eq_none', List.find?_eq_none]
  constructor
  · intro h hk
    rw [List.mem_map] at hk
    obtain ⟨dp, hdp, hfst⟩ := hk
    have := h dp hdp
    simp [hfst] at this
  · intro h dp hdp
    by_contra hc
    simp only [decide_eq_true_eq] at hc
    exact h (List.mem_map.mpr ⟨dp, hdp, by simpa using hc⟩)

lemma assocFind_some_mem {α : Type} (l : List (ℤ × α)) (k : ℤ) (v : α)
    (h : assocFind l k = some v) : (k, v) ∈ l := by
  unfold assocFind at h
  rw [Option.map_eq_some'] at h
  obtain ⟨dp, hdp, hsnd⟩ := h
  have hmem := List.mem_of_find?_eq_some hdp
  have hfst := List.find?_some hdp
  simp only [decide_eq_true_eq] at hfst
  have : dp = (k, v) := by
    cases dp
    simp only at hfst hsnd
    simp [hfst, hsnd]
  exact this ▸ hmem

lemma mem_assocFind_of_nodup {α : Type} (l : List (ℤ × α)) (k : ℤ) (v : α)
    (hnd : (l.map Prod.fst).Nodup) (h : (k, v) ∈ l) :
    assocFind l k = some v := by
  induction l with
  | nil => cases h
  | cons hd tl ih =>
      rw [List.map_cons, List.nodup_cons] at hnd
      rcases List.mem_cons.mp h with h | h
      · subst h
        unfold assocFind
        simp [List.find?]
      · have hne : hd.1 ≠ k := by
          intro hc
          exact hnd.1 (hc ▸ List.mem_map.mpr ⟨(k, v), h, rfl⟩)
        unfold assocFind
        rw [List.find?_cons_of_neg _ (by simpa using hne)]
        exact ih hnd.2 h

lemma assocReplace_map_fst {α : Type} (l : List (ℤ × α)) (k : ℤ) (v : α) :
    (assocReplace l k v).map Prod.fst = l.map Prod.fst := by
  induction l with
  | nil => rfl
  | cons hd tl ih =>
      unfold assocReplace
      split
      · rename_i h
        simp [← h]
      · simp [ih]

lemma mem_assocReplace_of_ne {α : Type} (l : List (ℤ × α)) (k : ℤ) (v : α)
    (d : ℤ) (p : α) (hne : d ≠ k) :
    (d, p) ∈ assocReplace l k v ↔ (d, p) ∈ l := by
  induction l with
  | nil => rfl
  | cons hd tl ih =>
      unfold assocReplace
      split
      · rename_i h
        constructor
        · intro hm
          rcases List.mem_cons.mp hm with hm | hm
          · cases hm; exact absurd rfl hne
          · exact List.mem_cons_of_mem _ hm
        · intro hm
          rcases List.mem_cons.mp hm with hm | hm
          · exact absurd ((congrArg Prod.fst hm).trans h) hne
          · exact List.mem_cons_of_mem _ hm
      · constructor
        · intro hm
          rcases List.mem_cons.mp hm with hm | hm
          · exact hm ▸ List.mem_cons_self _ _
          · exact List.mem_cons_of_mem _ (ih.mp hm)
        · intro hm
          rcases List.mem_cons.mp hm with hm | hm
          · exact hm ▸ List.mem_cons_self _ _
          · exact List.mem_cons_of_mem _ (ih.mpr hm)

lemma mem_assocReplace_self {α : Type} (l : List (ℤ × α)) (k : ℤ) (v : α)
    (p : α) (hnd : (l.map Prod.fst).Nodup)
    (h : (k, p) ∈ assocReplace l k v) : p = v := by
  induction l with
  | nil => cases h
  | cons hd tl ih =>
      rw [List.map_cons, List.nodup_cons] at hnd
      unfold assocReplace at h
      split at h
      · rename_i heq
        rcases List.mem_cons.mp h with h | h
        · cases h; rfl
        · exact absurd (heq ▸ List.mem_map.mpr ⟨(k, p), h, rfl⟩) hnd.1
      · rename_i hne
        rcases List.mem_cons.mp h with h | h
        · exact absurd (congrArg Prod.fst h).symm hne
        · exact ih hnd.2 h

lemma firstBest_append_singleton (l : List HRow) (u : HRow) :
    firstBest (l ++ [u]) =
      match firstBest l with
      | none => some u
      | some v =>
          if estOf u.weight u.reps > estOf v.weight v.reps then some u
          else some v := by
  unfold firstBest
  rw [List.foldl_append]
  rfl

lemma firstBest_foldl_some (l : List HRow) :
    ∀ v : HRow,
      (List.foldl
        (fun b w =>
          match b with
          | none => some w
          | some v =>
              if estOf w.weight w.reps > estOf v.weight v.reps then some w
              else some v)
        (some v) l) ≠ none := by
  induction l with
  | nil => intro v h; cases h
  | cons u rest ih =>
      intro v
      rw [List.foldl_cons]
      by_cases h : estOf u.weight u.reps > estOf v.weight v.reps
      · simpa [h] using ih u
      · simpa [h] using ih v

lemma firstBest_eq_none_iff (l : List HRow) :
    firstBest l = none ↔ l = [] := by
  cases l with
  | nil => simp [firstBest]
  | cons u rest =>
      simp only [firstBest, List.foldl_cons]
      constructor
      · intro h
        exact absurd h (firstBest_foldl_some rest u)
      · intro h
        cases h

lemma firstBest_spec (l : List HRow) (w : HRow) (h : firstBest l = some w) :
    ∃ pre post, l = pre ++ w :: post ∧
      (∀ v ∈ pre, estOf v.weight v.reps < estOf w.weight w.reps) ∧
      (∀ v ∈ post, estOf v.weight v.reps ≤ estOf w.weight w.reps) := by
  induction l using List.reverseRecOn generalizing w with
  | nil => cases h
  | append_singleton l u ih =>
      rw [firstBest_append_singleton] at h
      cases hfb : firstBest l with
      | none =>
          rw [hfb] at h
          injection h with h
          subst h
          rw [(firstBest_eq_none_iff l).mp hfb]
          exact ⟨[], [], rfl, by simp, by simp⟩
      | some v =>
          rw [hfb] at h
          dsimp only at h
          obtain ⟨pre, post, hdec, hpre, hpost⟩ := ih v hfb
          by_cases hgt : estOf u.weight u.reps > estOf v.weight v.reps
          · rw [if_pos hgt] at h
            injection h with h
            subst h
            refine ⟨l, [], by simp, ?_, by simp⟩
            intro x hx
            rw [hdec] at hx
            rcases List.mem_append.mp hx with hx | hx
            · exact lt_trans (hpre x hx) hgt
            · rcases List.mem_cons.mp hx with hx | hx
              · exact hx ▸ hgt
              · exact lt_of_le_of_lt (hpost x hx) hgt
          · rw [if_neg hgt] at h
            injection h with h
            subst h
            refine ⟨pre, post ++ [u], by rw [hdec]; simp, hpre, ?_⟩
            intro x hx
            rcases List.mem_append.mp hx with hx | hx
            · exact hpost x hx
            · rcases List.mem_singleton.mp hx ▸ le_of_not_lt hgt with h'
              exact h'

/-- Invariant of the `historical_by_date` fold, relative to the candidate
rows `C` processed so far: keys are distinct, a date holds a key exactly
when it has a candidate, and each stored point is the first candidate of
its date attaining the maximum estimated 1RM. -/
def HistDictInv (C : List HRow) (acc : List (ℤ × HistPoint)) : Prop :=
  (acc.map Prod.fst).Nodup ∧
  (∀ d : ℤ, d ∈ acc.map Prod.fst ↔ d ∈ C.map HRow.date) ∧
  (∀ dp ∈ acc, dp.2.date = dp.1 ∧
    ∃ w, firstBest (C.filter (fun v => v.date = dp.1)) = some w ∧
      dp.2 = toHistPoint w (estOf w.weight w.reps))

lemma histStep_inv_skip (C : List HRow) (acc : List (ℤ × HistPoint))
    (u : HRow) (hg : ¬ (weightTruthy u.weight && repsTruthy u.reps) = true)
    (h : HistDictInv C acc) : HistDictInv C (histStep acc u) := by
  unfold histStep
  rw [if_neg hg]
  exact h

lemma histStep_inv_cand (C : List HRow) (acc : List (ℤ × HistPoint))
    (u : HRow) (hg : (weightTruthy u.weight && repsTruthy u.reps) = true)
    (h : HistDictInv C acc) : HistDictInv (C ++ [u]) (histStep acc u) := by
  obtain ⟨hnd, hkeys, hpairs⟩ := h
  have hfilter_ne : ∀ d : ℤ, d ≠ u.date →
      (C ++ [u]).filter (fun v => v.date = d) =
        C.filter (fun v => v.date = d) := by
    intro d hd
    rw [List.filter_append]
    have : [u].filter (fun v => v.date = d) = [] := by
      simp [List.filter, Ne.symm hd]
    rw [this, List.append_nil]
  simp only [histStep, hg, if_true]
  cases hfind : assocFind acc u.date with
  | none =>
      have hkey : u.date ∉ acc.map Prod.fst :=
        (assocFind_eq_none_iff acc u.date).mp hfind
      refine ⟨?_, ?_, ?_⟩
      · rw [List.map_append]
        rw [List.nodup_append]
        refine ⟨hnd, List.nodup_singleton _, ?_⟩
        intro a ha hb
        simp only [List.map_cons, List.map_nil, List.mem_singleton] at hb
        exact hkey (hb ▸ ha)
      · intro d
        rw [List.map_append, List.mem_append, List.map_append, List.mem_append]
        simp only [List.map_cons, List.map_nil, List.mem_singleton, hkeys d]
      · intro dp hdp
        rcases List.mem_append.mp hdp with hdp | hdp
        · obtain ⟨hdate, w, hw, hpt⟩ := hpairs dp hdp
          refine ⟨hdate, w, ?_, hpt⟩
          have hne : dp.1 ≠ u.date := by
            intro hc
            exact hkey (hc ▸ List.mem_map.mpr ⟨dp, hdp, rfl⟩)
          rw [hfilter_ne dp.1 hne]
          exact hw
        · simp only [List.mem_singleton] at hdp
          subst hdp
          refine ⟨rfl, u, ?_, rfl⟩
          have hCempty : C.filter (fun v => v.date = u.date) = [] := by
            rw [List.filter_eq_nil_iff]
            intro v hv hc
            simp only [decide_eq_true_eq] at hc
            exact hkey ((hkeys u.date).mpr (List.mem_map.mpr ⟨v, hv, hc⟩))
          rw [List.filter_append, hCempty, List.nil_append]
          simp [List.filter, firstBest]
  | some p0 =>
      have hmem0 : (u.date, p0) ∈ acc := assocFind_some_mem _ _ _ hfind
      have hkeymem : u.date ∈ acc.map Prod.fst :=
        List.mem_map.mpr ⟨(u.date, p0), hmem0, rfl⟩
      obtain ⟨hdate0, w0, hw0, hpt0⟩ := hpairs _ hmem0
      dsimp only at hdate0 hw0 hpt0
      have hfilter_eq : (C ++ [u]).filter (fun v => v.date = u.date) =
          C.filter (fun v => v.date = u.date) ++ [u] := by
        rw [List.filter_append]
        simp [List.filter]
      have hp0est : p0.estimated_1rm = estOf w0.weight w0.reps := by
        rw [hpt0]; rfl
      have hkeys' : ∀ d : ℤ, d ∈ acc.map Prod.fst ↔ d ∈ (C ++ [u]).map HRow.date := by
        intro d
        rw [List.map_append, List.mem_append]
        simp only [List.map_cons, List.map_nil, List.mem_singleton, hkeys d]
        constructor
        · exact fun h => Or.inl h
        · rintro (h | h)
          · exact h
          · exact (hkeys d).mp (h ▸ hkeymem)
      dsimp only
      split
      · -- e > p0.estimated_1rm: in-place replacement
        rename_i hgt
        refine ⟨?_, ?_, ?_⟩
        · rw [assocReplace_map_fst]; exact hnd
        · intro d
          rw [assocReplace_map_fst]
          exact hkeys' d
        · rintro ⟨d, p⟩ hdp
          by_cases hd : d = u.date
          · subst hd
            have hpv := mem_assocReplace_self acc u.date _ p hnd hdp
            subst hpv
            refine ⟨rfl, u, ?_, rfl⟩
            rw [hfilter_eq, firstBest_append_singleton, hw0]
            rw [hp0est] at hgt
            simp [hgt]
          · have hdp' := (mem_assocReplace_of_ne acc u.date _ d p hd).mp hdp
            obtain ⟨hdate, w, hw, hpt⟩ := hpairs _ hdp'
            exact ⟨hdate, w, by rw [hfilter_ne d hd]; exact hw, hpt⟩
      · -- e ≤ p0.estimated_1rm: dict unchanged
        rename_i hle
        refine ⟨hnd, hkeys', ?_⟩
        rintro ⟨d, p⟩ hdp
        by_cases hd : d = u.date
        · subst hd
          have : assocFind acc u.date = some p := mem_assocFind_of_nodup acc u.date p hnd hdp
          rw [hfind] at this
          injection this with this
          subst this
          refine ⟨hdate0, w0, ?_, hpt0⟩
          rw [hfilter_eq, firstBest_append_singleton, hw0]
          rw [hp0est] at hle
          simp [hle]
        · obtain ⟨hdate, w, hw, hpt⟩ := hpairs _ hdp
          exact ⟨hdate, w, by rw [hfilter_ne d hd]; exact hw, hpt⟩

lemma histDict_inv (rows : List HRow) :
    HistDictInv (histCands rows) (histDict rows) := by
  unfold histDict histCands
  generalize rows.filter (fun w => w.weight ≠ none) = R
  induction R using List.reverseRecOn with
  | nil => exact ⟨by simp, by simp, by intro dp h; cases h⟩
  | append_singleton R u ih =>
      rw [List.foldl_append, List.filter_append, List.foldl_cons, List.foldl_nil]
      by_cases hg : (weightTruthy u.weight && repsTruthy u.reps) = true
      · have : List.filter (fun w => weightTruthy w.weight && repsTruthy w.reps) [u] = [u] := by
          simp [List.filter, hg]
        rw [this]
        exact histStep_inv_cand _ _ _ hg ih
      · have : List.filter (fun w => weightTruthy w.weight && repsTruthy w.reps) [u] = [] := by
          simp only [List.filter]
          rw [Bool.not_eq_true] at hg
          rw [hg]
        rw [this, List.append_nil]
        exact histStep_inv_skip _ _ _ (by simpa using hg) ih

/-- Invariant of the inner best-set fold, relative to the candidate rows
`C` processed so far: no best yet means every candidate's estimate is
non-positive; otherwise the best is the first candidate attaining the
(positive) maximum estimate. -/
def BestInv (s pd : ℤ) (C : List URow) (be : Option UPoint × ℚ) : Prop :=
  (be.1 = none → be.2 = 0 ∧ ∀ v ∈ C, estOf v.weight v.reps ≤ 0) ∧
  (∀ p, be.1 = some p → be.2 = p.estimated_1rm ∧ 0 < be.2 ∧
    ∃ w pre post, C = pre ++ w :: post ∧ p = mkUPoint s pd w ∧
      estOf w.weight w.reps = be.2 ∧
      (∀ v ∈ pre, estOf v.weight v.reps < be.2) ∧
      (∀ v ∈ post, estOf v.weight v.reps ≤ be.2))

lemma bestUpStep_inv (s pd : ℤ) (C : List URow) (be : Option UPoint × ℚ)
    (u : URow) (h : BestInv s pd C be) :
    BestInv s pd
      (C ++ (if weightTruthy u.weight && repsTruthy u.reps then [u] else []))
      (bestUpStep s pd be u) := by
  obtain ⟨hn, hs⟩ := h
  by_cases hg : (weightTruthy u.weight && repsTruthy u.reps) = true
  · rw [if_pos hg]
    simp only [bestUpStep, hg, if_true]
    by_cases hgt : estOf u.weight u.reps > be.2
    · rw [if_pos hgt]
      constructor
      · intro hc; cases hc
      · intro p hp
        injection hp with hp
        subst hp
        have hpos : 0 < estOf u.weight u.reps := by
          cases hbe : be.1 with
          | none => exact lt_of_le_of_lt (le_of_eq (hn hbe).1.symm) hgt
          | some q => exact lt_trans ((hs q hbe).2.1) hgt
        refine ⟨rfl, hpos, u, C, [], by simp, rfl, rfl, ?_, by simp⟩
        intro v hv
        cases hbe : be.1 with
        | none =>
            obtain ⟨h0, hall⟩ := hn hbe
            exact lt_of_le_of_lt (hall v hv) (h0 ▸ hgt)
        | some q =>
            obtain ⟨-, -, w, pre, post, hdec, -, hw, hpre, hpost⟩ := hs q hbe
            rw [hdec] at hv
            rcases List.mem_append.mp hv with hv | hv
            · exact lt_trans (hpre v hv) hgt
            · rcases List.mem_cons.mp hv with rfl | hv
              · exact hw ▸ hgt
              · exact lt_of_le_of_lt (hpost v hv) hgt
    · rw [if_neg hgt]
      constructor
      · intro hbe
        obtain ⟨h0, hall⟩ := hn hbe
        refine ⟨h0, ?_⟩
        intro v hv
        rcases List.mem_append.mp hv with hv | hv
        · exact hall v hv
        · rcases List.mem_singleton.mp hv with rfl
          exact h0 ▸ le_of_not_lt hgt
      · intro p hbe
        obtain ⟨hbest, hpos, w, pre, post, hdec, hp, hw, hpre, hpost⟩ :=
          hs p hbe
        refine ⟨hbest, hpos, w, pre, post ++ [u], by rw [hdec]; simp, hp, hw,
          hpre, ?_⟩
        intro v hv
        rcases List.mem_append.mp hv with hv | hv
        · exact hpost v hv
        · rcases List.mem_singleton.mp hv with rfl
          exact le_of_not_lt hgt
  · rw [if_neg hg, List.append_nil]
    have hid : bestUpStep s pd be u = be := by
      simp only [bestUpStep]
      rw [if_neg hg]
    rw [hid]
    exact ⟨hn, hs⟩

lemma bestUp_fold_inv (s pd : ℤ) (rows : List URow) :
    BestInv s pd (rows.filter (fun w => weightTruthy w.weight && repsTruthy w.reps))
      (rows.foldl (bestUpStep s pd) (none, 0)) := by
  induction rows using List.reverseRecOn with
  | nil =>
      exact ⟨fun _ => ⟨rfl, by intro v hv; cases hv⟩,
        fun p hp => by simp [List.foldl_nil] at hp⟩
  | append_singleton rows u ih =>
      rw [List.foldl_append, List.filter_append, List.foldl_cons, List.foldl_nil]
      have step := bestUpStep_inv s pd _ _ u ih
      by_cases hg : (weightTruthy u.weight && repsTruthy u.reps) = true
      · rw [if_pos hg] at step
        have : List.filter (fun w => weightTruthy w.weight && repsTruthy w.reps) [u] = [u] := by
          simp [List.filter, hg]
        rw [this]
        exact step
      · rw [if_neg hg, List.append_nil] at step
        have : List.filter (fun w => weightTruthy w.weight && repsTruthy w.reps) [u] = [] := by
          simp only [List.filter]
          rw [Bool.not_eq_true] at hg
          rw [hg]
        rw [this, List.append_nil]
        exact step

lemma upcomingStep_cases (U : List URow) (ex : String)
    (dateMap : List (ℤ × ℤ)) (acc : List UPoint) (s : ℤ) :
    upcomingStep U ex dateMap acc s = acc ∨
    ∃ w pre post, upCands U ex s = pre ++ w :: post ∧
      0 < estOf w.weight w.reps ∧
      (∀ v ∈ pre, estOf v.weight v.reps < estOf w.weight w.reps) ∧
      (∀ v ∈ post, estOf v.weight v.reps ≤ estOf w.weight w.reps) ∧
      upcomingStep U ex dateMap acc s =
        acc ++ [mkUPoint s ((assocFind dateMap s).getD 0) w] := by
  have hinv := bestUp_fold_inv s ((assocFind dateMap s).getD 0) (exRows U ex s)
  simp only [upcomingStep]
  split
  · exact Or.inl rfl
  · cases hbe : (List.foldl (bestUpStep s ((assocFind dateMap s).getD 0))
        (none, 0) (exRows U ex s)).1 with
    | none =>
        rw [show ((U.filter (fun w => w.session = s)).filter
            (fun w => w.exercise = ex && weightTruthy w.weight)) = exRows U ex s
          from rfl, hbe]
        exact Or.inl rfl
    | some p =>
        obtain ⟨hbest, hpos, w, pre, post, hdec, hp, hw, hpre, hpost⟩ :=
          hinv.2 p hbe
        refine Or.inr ⟨w, pre, post, hdec, ?_, ?_, ?_, ?_⟩
        · rw [hw]; exact hpos
        · intro v hv; rw [hw]; exact hpre v hv
        · intro v hv; rw [hw]; exact hpost v hv
        · rw [show ((U.filter (fun w => w.session = s)).filter
              (fun w => w.exercise = ex && weightTruthy w.weight)) = exRows U ex s
            from rfl, hbe, hp]

lemma upcomingStep_complete (U : List URow) (ex : String)
    (dateMap : List (ℤ × ℤ)) (acc : List UPoint) (s : ℤ)
    (h : ∃ w ∈ upCands U ex s, 0 < estOf w.weight w.reps) :
    ∃ p, upcomingStep U ex dateMap acc s = acc ++ [p] ∧ p.session = s := by
  obtain ⟨w, hw, hwpos⟩ := h
  rcases upcomingStep_cases U ex dateMap acc s with hcase | hcase
  · exfalso
    have hinv := bestUp_fold_inv s ((assocFind dateMap s).getD 0) (exRows U ex s)
    have hne : ¬ ((U.filter (fun v => v.session = s)).filter
        (fun v => v.exercise = ex && weightTruthy v.weight)) = [] := by
      intro hc
      have : exRows U ex s = [] := hc
      unfold upCands at hw
      rw [this] at hw
      cases hw
    simp only [upcomingStep] at hcase
    rw [if_neg hne] at hcase
    cases hbe : (List.foldl (bestUpStep s ((assocFind dateMap s).getD 0))
        (none, 0) (exRows U ex s)).1 with
    | none =>
        have hall := (hinv.1 hbe).2 w hw
        exact absurd hwpos (not_lt.mpr hall)
    | some p =>
        rw [show ((U.filter (fun v => v.session = s)).filter
            (fun v => v.exercise = ex && weightTruthy v.weight)) = exRows U ex s
          from rfl, hbe] at hcase
        have hlen := congrArg List.length hcase
        simp at hlen
  · obtain ⟨w', pre, post, hdec, hpos, hpre, hpost, hstep⟩ := hcase
    exact ⟨mkUPoint s ((assocFind dateMap s).getD 0) w', hstep, rfl⟩

lemma upcomingStep_subset (U : List URow) (ex : String)
    (dateMap : List (ℤ × ℤ)) (acc : List UPoint) (s : ℤ) (p : UPoint)
    (hp : p ∈ acc) : p ∈ upcomingStep U ex dateMap acc s := by
  rcases upcomingStep_cases U ex dateMap acc s with h | ⟨w, pre, post, -, -, -, -, h⟩ <;>
    rw [h]
  · exact hp
  · exact List.mem_append_left _ hp

lemma upcoming_fold_mono (U : List URow) (ex : String)
    (dateMap : List (ℤ × ℤ)) (K : List ℤ) :
    ∀ (acc : List UPoint) (p : UPoint), p ∈ acc →
      p ∈ K.foldl (upcomingStep U ex dateMap) acc := by
  induction K with
  | nil => intro acc p hp; exact hp
  | cons s K' ih =>
      intro acc p hp
      rw [List.foldl_cons]
      exact ih _ p (upcomingStep_subset U ex dateMap acc s p hp)

lemma mem_upcoming_fold_char (U : List URow) (ex : String)
    (dateMap : List (ℤ × ℤ)) (K : List ℤ) :
    ∀ (acc : List UPoint) (p : UPoint),
      p ∈ K.foldl (upcomingStep U ex dateMap) acc →
      p ∈ acc ∨ ∃ s ∈ K, ∃ w pre post,
        upCands U ex s = pre ++ w :: post ∧
        p = mkUPoint s ((assocFind dateMap s).getD 0) w ∧
        0 < estOf w.weight w.reps ∧
        (∀ v ∈ pre, estOf v.weight v.reps < estOf w.weight w.reps) ∧
        (∀ v ∈ post, estOf v.weight v.reps ≤ estOf w.weight w.reps) := by
  induction K with
  | nil => intro acc p hp; exact Or.inl hp
  | cons s K' ih =>
      intro acc p hp
      rw [List.foldl_cons] at hp
      rcases ih _ p hp with hin | ⟨s', hs', rest⟩
      · rcases upcomingStep_cases U ex dateMap acc s with h | ⟨w, pre, post, h1, h2, h3, h4, h⟩ <;>
          rw [h] at hin
        · exact Or.inl hin
        · rcases List.mem_append.mp hin with hin | hin
          · exact Or.inl hin
          · rcases List.mem_singleton.mp hin with rfl
            exact Or.inr ⟨s, List.mem_cons_self _ _, w, pre, post, h1, rfl,
              h2, h3, h4⟩
      · exact Or.inr ⟨s', List.mem_cons_of_mem _ hs', rest⟩

lemma upcoming_fold_spec (U : List URow) (ex : String)
    (dateMap : List (ℤ × ℤ)) (K : List ℤ) (hK : K.Pairwise (· < ·)) :
    ∀ (acc : List UPoint),
      ((acc.map UPoint.session).Pairwise (· < ·)) →
      (∀ p ∈ acc, ∀ s ∈ K, p.session < s) →
      (((K.foldl (upcomingStep U ex dateMap) acc).map UPoint.session).Pairwise
        (· < ·)) ∧
      (∀ s ∈ K, (∃ w ∈ upCands U ex s, 0 < estOf w.weight w.reps) →
        ∃ p ∈ K.foldl (upcomingStep U ex dateMap) acc, p.session = s) := by
  induction K with
  | nil =>
      intro acc hp _
      exact ⟨hp, by intro s hs; cases hs⟩
  | cons s K' ih =>
      intro acc hpair hbound
      have hK' : K'.Pairwise (· < ·) := hK.of_cons
      have hsK' : ∀ s' ∈ K', s < s' := fun s' hs' =>
        List.rel_of_pairwise_cons hK hs'
      -- the one-step result and its properties
      have hstep : ∃ acc', upcomingStep U ex dateMap acc s = acc' ∧
          ((acc'.map UPoint.session).Pairwise (· < ·)) ∧
          (∀ p ∈ acc', ∀ s' ∈ K', p.session < s') ∧
          ((∃ w ∈ upCands U ex s, 0 < estOf w.weight w.reps) →
            ∃ p ∈ acc', p.session = s) := by
        rcases upcomingStep_cases U ex dateMap acc s with h | ⟨w, pre, post, h1, h2, h3, h4, h⟩
        · refine ⟨acc, h, hpair, ?_, ?_⟩
          · intro p hp s' hs'
            exact hbound p hp s' (List.mem_cons_of_mem _ hs')
          · intro hex
            obtain ⟨p, hp, hps⟩ := upcomingStep_complete U ex dateMap acc s hex
            rw [h] at hp
            have hlen := congrArg List.length hp
            simp at hlen
        · set pt := mkUPoint s ((assocFind dateMap s).getD 0) w with hpt
          refine ⟨acc ++ [pt], h, ?_, ?_, ?_⟩
          · rw [List.map_append, List.pairwise_append]
            refine ⟨hpair, by simp, ?_⟩
            intro a ha b hb
            simp only [List.map_cons, List.map_nil, List.mem_singleton] at hb
            rw [List.mem_map] at ha
            obtain ⟨q, hq, rfl⟩ := ha
            rw [hb]
            exact hbound q hq s (List.mem_cons_self _ _)
          · intro p hp s' hs'
            rcases List.mem_append.mp hp with hp | hp
            · exact hbound p hp s' (List.mem_cons_of_mem _ hs')
            · rcases List.mem_singleton.mp hp with rfl
              exact hsK' s' hs'
          · intro _
            exact ⟨pt, List.mem_append_right _ (List.mem_singleton_self _), rfl⟩
      obtain ⟨acc', hacc', hpair', hbound', hcomp'⟩ := hstep
      rw [List.foldl_cons, hacc']
      obtain ⟨ih1, ih2⟩ := ih hK' acc' hpair' hbound'
      refine ⟨ih1, ?_⟩
      intro s' hs' hex
      rcases List.mem_cons.mp hs' with rfl | hs'
      · obtain ⟨p, hp, hps⟩ := hcomp' hex
        exact ⟨p, upcoming_fold_mono U ex dateMap K' acc' p hp, hps⟩
      · exact ih2 s' hs' hex

instance : IsTotal HistPoint (fun p q => p.date ≤ q.date) :=
  ⟨fun a b => le_total a.date b.date⟩

instance : IsTrans HistPoint (fun p q => p.date ≤ q.date) :=
  ⟨fun _ _ _ h1 h2 => le_trans h1 h2⟩

lemma firstSeenKeys_nodup (U : List URow) : (firstSeenKeys U).Nodup := by
  unfold firstSeenKeys
  have key : ∀ (l : List URow) (acc : List ℤ), acc.Nodup →
      (l.foldl (fun acc w => if w.session ∈ acc then acc else acc ++ [w.session])
        acc).Nodup := by
    intro l
    induction l with
    | nil => exact fun acc h => h
    | cons u rest ih =>
        intro acc hacc
        rw [List.foldl_cons]
        by_cases hm : u.session ∈ acc
        · rw [if_pos hm]
          exact ih _ hacc
        · rw [if_neg hm]
          refine ih _ ?_
          rw [List.nodup_append]
          exact ⟨hacc, List.nodup_singleton _,
            fun a ha hb => hm ((List.mem_singleton.mp hb) ▸ ha)⟩
  exact key U [] List.nodup_nil

lemma mem_firstSeenKeys (U : List URow) (s : ℤ) :
    s ∈ firstSeenKeys U ↔ ∃ w ∈ U, w.session = s := by
  unfold firstSeenKeys
  have key : ∀ (l : List URow) (acc : List ℤ),
      (s ∈ l.foldl (fun acc w => if w.session ∈ acc then acc else acc ++ [w.session]) acc ↔
        s ∈ acc ∨ ∃ w ∈ l, w.session = s) := by
    intro l
    induction l with
    | nil => simp
    | cons u rest ih =>
        intro acc
        rw [List.foldl_cons]
        by_cases hm : u.session ∈ acc
        · rw [if_pos hm, ih]
          constructor
          · rintro (h | h)
            · exact Or.inl h
            · obtain ⟨w, hw, hws⟩ := h
              exact Or.inr ⟨w, List.mem_cons_of_mem _ hw, hws⟩
          · rintro (h | ⟨w, hw, hws⟩)
            · exact Or.inl h
            · rcases List.mem_cons.mp hw with rfl | hw
              · exact Or.inl (hws ▸ hm)
              · exact Or.inr ⟨w, hw, hws⟩
        · rw [if_neg hm, ih]
          constructor
          · rintro (h | h)
            · rcases List.mem_append.mp h with h | h
              · exact Or.inl h
              · exact Or.inr ⟨u, List.mem_cons_self _ _,
                  (List.mem_singleton.mp h).symm⟩
            · obtain ⟨w, hw, hws⟩ := h
              exact Or.inr ⟨w, List.mem_cons_of_mem _ hw, hws⟩
          · rintro (h | ⟨w, hw, hws⟩)
            · exact Or.inl (List.mem_append_left _ h)
            · rcases List.mem_cons.mp hw with rfl | hw
              · exact Or.inl (List.mem_append_right _ (by simp [hws]))
              · exact Or.inr ⟨w, hw, hws⟩
  rw [key U []]
  simp

lemma sortedSessionKeys_pairwise (U : List URow) :
    (sortedSessionKeys U).Pairwise (· < ·) := by
  unfold sortedSessionKeys
  have hsorted : (List.insertionSort (· ≤ ·) (firstSeenKeys U)).Pairwise (· ≤ ·) :=
    List.sorted_insertionSort (· ≤ ·) (firstSeenKeys U)
  have hnodup : (List.insertionSort (· ≤ ·) (firstSeenKeys U)).Nodup :=
    ((List.perm_insertionSort (· ≤ ·) (firstSeenKeys U)).nodup_iff).mpr
      (firstSeenKeys_nodup U)
  exact (hsorted.and hnodup).imp (fun h => lt_of_le_of_ne h.1 h.2)

lemma mem_sortedSessionKeys (U : List URow) (s : ℤ) :
    s ∈ sortedSessionKeys U ↔ ∃ w ∈ U, w.session = s := by
  unfold sortedSessionKeys
  rw [List.mem_insertionSort]
  exact mem_firstSeenKeys U s

lemma histSeries_mem_iff (rows : List HRow) (p : HistPoint) :
    p ∈ histSeries rows ↔ ∃ dp ∈ histDict rows, dp.2 = p := by
  unfold histSeries
  rw [List.mem_insertionSort, List.mem_map]

lemma hist_dates_pairwise (rows : List HRow) :
    ((histSeries rows).map HistPoint.date).Pairwise (· < ·) := by
  obtain ⟨hnd, hkeys, hpairs⟩ := histDict_inv rows
  have hsorted : ((histSeries rows).map HistPoint.date).Pairwise (· ≤ ·) := by
    have := List.sorted_insertionSort (fun p q => p.date ≤ q.date)
      ((histDict rows).map Prod.snd)
    exact List.pairwise_map.mpr this
  have hdates_eq : ((histDict rows).map Prod.snd).map HistPoint.date =
      (histDict rows).map Prod.fst := by
    rw [List.map_map]
    exact List.map_congr_left (fun dp hdp => (hpairs dp hdp).1)
  have hnodup : ((histSeries rows).map HistPoint.date).Nodup := by
    have hperm : List.Perm ((histSeries rows).map HistPoint.date)
        (((histDict rows).map Prod.snd).map HistPoint.date) :=
      (List.perm_insertionSort _ _).map _
    rw [hperm.nodup_iff, hdates_eq]
    exact hnd
  exact List.Pairwise.imp₂ (fun a b h1 h2 => lt_of_le_of_ne h1 h2) hsorted hnodup

lemma hist_date_complete (rows : List HRow) (d : ℤ) :
    (∃ p ∈ histSeries rows, p.date = d) ↔
      d ∈ (histCands rows).map HRow.date := by
  obtain ⟨hnd, hkeys, hpairs⟩ := histDict_inv rows
  rw [← hkeys d]
  constructor
  · rintro ⟨p, hp, rfl⟩
    obtain ⟨dp, hdp, rfl⟩ := (histSeries_mem_iff rows p).mp hp
    rw [(hpairs dp hdp).1]
    exact List.mem_map.mpr ⟨dp, hdp, rfl⟩
  · intro h
    obtain ⟨dp, hdp, rfl⟩ := List.mem_map.mp h
    exact ⟨dp.2, (histSeries_mem_iff rows dp.2).mpr ⟨dp, hdp, rfl⟩,
      (hpairs dp hdp).1⟩

lemma hist_point_best (rows : List HRow) (p : HistPoint)
    (hp : p ∈ histSeries rows) :
    ∃ w pre post,
      (histCands rows).filter (fun v => v.date = p.date) = pre ++ w :: post ∧
      p = toHistPoint w (estOf w.weight w.reps) ∧
      (∀ v ∈ pre, estOf v.weight v.reps < estOf w.weight w.reps) ∧
      (∀ v ∈ post, estOf v.weight v.reps ≤ estOf w.weight w.reps) := by
  obtain ⟨hnd, hkeys, hpairs⟩ := histDict_inv rows
  obtain ⟨dp, hdp, rfl⟩ := (histSeries_mem_iff rows p).mp hp
  obtain ⟨hdate, w, hw, hpt⟩ := hpairs dp hdp
  rw [hdate]
  obtain ⟨pre, post, hdec, hpre, hpost⟩ := firstBest_spec _ _ hw
  exact ⟨w, pre, post, hdec, hpt, hpre, hpost⟩

lemma upCands_subset (U : List URow) (ex : String) (s : ℤ) (w : URow)
    (hw : w ∈ upCands U ex s) : w ∈ U ∧ w.session = s := by
  unfold upCands exRows at hw
  have h1 := (List.mem_filter.mp hw).1
  have h2 := List.mem_filter.mp h1
  have h3 := List.mem_filter.mp h2.1
  exact ⟨h3.1, by simpa using h3.2⟩

set_option linter.unusedVariables false in
/-- C8: both output series are sorted strictly ascending (historical by
date, upcoming by session), so each holds at most one point per
date/session; the historical series has exactly one point for every date
with a candidate row, the upcoming series one for every session with a
candidate of positive estimated 1RM; and every point is the first-seen
candidate attaining the maximum estimated 1RM of its date/session
(earlier candidates are strictly worse, later ones no better). -/
theorem progression_series_sorted_unique_best
    (rows : List HRow) (U : List URow) (ex : String) (today : ℤ) :
    (((get_progression_data ex rows U today).historical.map
      HistPoint.date).Pairwise (· < ·)) ∧
    (∀ d : ℤ, (∃ p ∈ (get_progression_data ex rows U today).historical,
        p.date = d) ↔ d ∈ (histCands rows).map HRow.date) ∧
    (∀ p ∈ (get_progression_data ex rows U today).historical,
      ∃ w pre post,
        (histCands rows).filter (fun v => v.date = p.date) = pre ++ w :: post ∧
        p = toHistPoint w (estOf w.weight w.reps) ∧
        (∀ v ∈ pre, estOf v.weight v.reps < estOf w.weight w.reps) ∧
        (∀ v ∈ post, estOf v.weight v.reps ≤ estOf w.weight w.reps)) ∧
    (((get_progression_data ex rows U today).upcoming.map
      UPoint.session).Pairwise (· < ·)) ∧
    (∀ p ∈ (get_progression_data ex rows U today).upcoming,
      ∃ w pre post, upCands U ex p.session = pre ++ w :: post ∧
        p = mkUPoint p.session p.projected_date w ∧
        0 < estOf w.weight w.reps ∧
        (∀ v ∈ pre, estOf v.weight v.reps < estOf w.weight w.reps) ∧
        (∀ v ∈ post, estOf v.weight v.reps ≤ estOf w.weight w.reps)) ∧
    (∀ s : ℤ, (∃ w ∈ upCands U ex s, 0 < estOf w.weight w.reps) →
      ∃ p ∈ (get_progression_data ex rows U today).upcoming,
        p.session = s) := by
  have hh : (get_progression_data ex rows U today).historical =
      histSeries rows := rfl
  have hu : (get_progression_data ex rows U today).upcoming =
      upcomingSeries U ex (histSeries rows) today := by
    simp [get_progression_data]
  have hfold : upcomingSeries U ex (histSeries rows) today =
      (sortedSessionKeys U).foldl
        (upcomingStep U ex (sessionDateMap (sortedSessionKeys U)
          (startDate (histSeries rows) today))) [] := rfl
  obtain ⟨hupair, hucomp⟩ := upcoming_fold_spec U ex
    (sessionDateMap (sortedSessionKeys U) (startDate (histSeries rows) today))
    (sortedSessionKeys U) (sortedSessionKeys_pairwise U) []
    (by simp) (by intro p hp; cases hp)
  refine ⟨?_, ?_, ?_, ?_, ?_, ?_⟩
  · rw [hh]; exact hist_dates_pairwise rows
  · intro d; rw [hh]; exact hist_date_complete rows d
  · intro p hp; rw [hh] at hp; exact hist_point_best rows p hp
  · rw [hu, hfold]; exact hupair
  · intro p hp
    rw [hu, hfold] at hp
    rcases mem_upcoming_fold_char U ex _ _ _ p hp with h | ⟨s, hs, w, pre, post, h1, h2, h3, h4, h5⟩
    · cases h
    · have hsess : p.session = s := by rw [h2]; rfl
      have hdate : p.projected_date =
          (assocFind (sessionDateMap (sortedSessionKeys U)
            (startDate (histSeries rows) today)) s).getD 0 := by
        rw [h2]; rfl
      refine ⟨w, pre, post, ?_, ?_, h3, h4, h5⟩
      · rw [hsess]; exact h1
      · rw [hsess, hdate]; exact h2
  · intro s hex
    rw [hu, hfold]
    exact hucomp s (by
      obtain ⟨w, hw, -⟩ := hex
      obtain ⟨hwU, hws⟩ := upCands_subset U ex s w hw
      exact (mem_sortedSessionKeys U s).mpr ⟨w, hwU, hws⟩) hex

set_option maxHeartbeats 1000000 in
theorem progression_series_sorted_unique_best_witness :
    ∃ p ∈ (get_progression_data "A" [ceHistA] ceUp 0).upcoming,
      p.session = 1 := by
  have hest : estOf (some 100) (.rint 5) = 1165 / 10 := by
    simp [estOf, calculate_estimated_1rm, repsToInt, weightToFloat, pyRound1]
    norm_num [pyRound]
  refine (progression_series_sorted_unique_best [ceHistA] ceUp "A" 0).2.2.2.2.2
    1 ⟨ceUpA, ?_, ?_⟩
  · have hba : (decide ("B" = "A")) = false := by rfl
    norm_num [upCands, exRows, ceUp, ceUpA, ceUpB, weightTruthy, repsTruthy,
      List.filter, hba]
  · rw [show ceUpA.weight = some 100 from rfl,
      show ceUpA.reps = RVal.rint 5 from rfl, hest]
    norm_num
